import Mathlib

/-!
# Verification of the codediff line-diff library

This file gives a shallow embedding of the library's behaviour and proves the
specification's claims about it.

The repository ships two kinds of relevant code:

* `include/version.h` — the version-string cache `read_version_from_file`,
  embedded below faithfully from the C source (file contents are modelled as
  `Option (List Char)`, `none` meaning the `VERSION` file cannot be opened).
* the diff core `compute_diff` — its implementation file is not part of the
  visible sources (only its test-suite callers are), so the core is modelled
  from the specification, stage by stage: sequence diff engine, line-level
  differ, character-level refiner, move detector and orchestrator.  Every
  such definition carries a doc comment starting `Modelled from the spec:`.
-/

namespace CodeDiff

/-- A line is a sequence of characters (no trailing newline). -/
abbrev Line := List Char

/-! ## Embedding of `include/version.h` (`read_version_from_file`)

The C function keeps a `static char version[32]` buffer and a
`static int initialized` flag.  On the first call it opens `VERSION`,
reads one `fgets(version, 32, f)` worth of data (at most 31 characters,
stopping after a newline), strips a trailing newline, and falls back to
`"unknown"` when the file cannot be opened or yields no data.  Every later
call returns the cached buffer without touching the file system. -/

/-- The process-wide static state of `read_version_from_file`:
`static char version[32]` together with `static int initialized`. -/
structure VersionState where
  initialized : Bool
  version : List Char
deriving DecidableEq

/-- The state of the statics before the first call: `initialized = 0`,
zeroed buffer. -/
def initVersionState : VersionState := ⟨false, []⟩

/-- `fgets(buf, n+1, f)` semantics on the file content: read at most `n`
characters, stopping after (and including) the first newline. -/
def fgetsAux : Nat → List Char → List Char
  | 0, _ => []
  | _, [] => []
  | n + 1, c :: cs => if c = '\n' then [c] else c :: fgetsAux n cs

/-- The value of the C string stored in the buffer after `fgets`: the
characters up to the terminating NUL.  The buffer is zeroed beforehand and
`fgets` NUL-terminates, so the string is the prefix of the read data up to
the first NUL byte. -/
def cString (l : List Char) : List Char :=
  l.takeWhile (fun c => c ≠ '\x00')

/-- The newline-stripping step of `read_version_from_file`:
`if (len > 0 && version[len-1] == '\n') version[len-1] = '\0'`. -/
def stripTrailingNewline (l : List Char) : List Char :=
  if l.getLast? = some '\n' then l.dropLast else l

/-- The string computed by the first (initializing) call of
`read_version_from_file`, as a function of the `VERSION` file:
`none` models `fopen` failing, `some content` an openable file with the
given bytes. -/
def readVersionOnce (file : Option (List Char)) : List Char :=
  match file with
  | none => "unknown".data
  | some content =>
    let buf := cString (fgetsAux 31 content)
    if buf = [] then "unknown".data
    else stripTrailingNewline buf

/-- One call of `read_version_from_file`, as a state transformer over the
static state.  The result triple is (returned string, new static state,
whether the file system was touched by this call). -/
def read_version_from_file (file : Option (List Char)) (s : VersionState) :
    List Char × VersionState × Bool :=
  if s.initialized then (s.version, s, false)
  else
    let v := readVersionOnce file
    (v, ⟨true, v⟩, true)

/-- The first line of a file's content: characters before the first newline. -/
def firstLineOf (content : List Char) : List Char :=
  content.takeWhile (fun c => c ≠ '\n')

/-! ## Data model of the diff core (§3 of the spec)

The implementation files of the diff core are not part of the visible
sources — only their test-suite callers are — so every definition from here
to `compute_diff` is modelled from the specification. -/

/-- Modelled from the spec: `LineRange` over 1-based line numbers, the end
bound exclusive; equal bounds denote an empty range. -/
structure LineRange where
  start_line : Nat
  end_line_exclusive : Nat
deriving DecidableEq

/-- Modelled from the spec: a 1-based (line, column) position used by inner
character edits. -/
structure CharPos where
  line : Nat
  column : Nat
deriving DecidableEq

/-- Modelled from the spec: `CharRange`, a pair of (line, column) positions. -/
structure CharRange where
  start : CharPos
  stop : CharPos
deriving DecidableEq

/-- Modelled from the spec: `RangeMapping`, a correspondence between a span of
the original sequence and a span of the modified sequence. -/
structure RangeMapping where
  original : LineRange
  modified : LineRange
deriving DecidableEq

/-- Modelled from the spec: one inner `CharRange` pair of a detailed mapping. -/
structure CharMapping where
  original : CharRange
  modified : CharRange
deriving DecidableEq

/-- Modelled from the spec: `DetailedRangeMapping`, a `RangeMapping` plus its
ordered inner character-level edits. -/
structure DetailedRangeMapping where
  original : LineRange
  modified : LineRange
  inner_changes : List CharMapping
deriving DecidableEq

/-- Modelled from the spec: `MovedBlock`, a relocated block together with any
edits made to the moved text itself. -/
structure MovedBlock where
  original : LineRange
  modified : LineRange
  inner_changes : List DetailedRangeMapping
deriving DecidableEq

/-- Modelled from the spec: `DiffOptions`.  The wall-clock budget
`max_computation_time_ms` (0 = unbounded) is interpreted through an abstract
step budget, see `compute_diff`. -/
structure DiffOptions where
  ignore_trim_whitespace : Bool
  max_computation_time_ms : Nat
  compute_moves : Bool
  extend_to_subwords : Bool
deriving DecidableEq

/-- Modelled from the spec: `LinesDiff`, the result root. -/
structure LinesDiff where
  changes : List DetailedRangeMapping
  moves : List MovedBlock
  hit_timeout : Bool
deriving DecidableEq

/-! ## Sequence Diff Engine (§4.1) -/

variable {α : Type}

/-- Modelled from the spec: one aligned chunk of the sequence diff engine's
output — either a pair of elements equal under the predicate, or an edit
segment holding the deleted and inserted elements.  The engine's
`(aRange, bRange)` edit segments are recovered from the chunk list by
`chunkMappings`. -/
inductive Chunk (α : Type) where
  | keep (a b : α)
  | edit (dels inss : List α)
deriving DecidableEq

/-- The edit-script cost of an alignment: total deleted plus inserted
elements. -/
def editCost : List (Chunk α) → Nat
  | [] => 0
  | .keep _ _ :: r => editCost r
  | .edit ds inss :: r => ds.length + inss.length + editCost r

/-- Prepend a deletion to an alignment, merging into a leading edit chunk so
that maximal runs of edits form single segments. -/
def consDel (x : α) : List (Chunk α) → List (Chunk α)
  | .edit ds inss :: r => .edit (x :: ds) inss :: r
  | cs => .edit [x] [] :: cs

/-- Prepend an insertion to an alignment, merging into a leading edit chunk. -/
def consIns (y : α) : List (Chunk α) → List (Chunk α)
  | .edit ds inss :: r => .edit ds (y :: inss) :: r
  | cs => .edit [] [y] :: cs

/-- Modelled from the spec: the core shortest-edit-script alignment of the
Sequence Diff Engine, generic over the equality predicate.  Ties between a
minimal deletion-first and insertion-first alignment are broken in favour of
the deletion, matching the convention that deletion spans are reported before
insertion spans at the same boundary. -/
def seqAlignAux (eq : α → α → Bool) : Nat → List α → List α → List (Chunk α)
  | _, [], [] => []
  | _, [], y :: ys => [.edit [] (y :: ys)]
  | _, x :: xs, [] => [.edit (x :: xs) []]
  | 0, x :: xs, y :: ys => [.edit (x :: xs) (y :: ys)]
  | n + 1, x :: xs, y :: ys =>
    if eq x y then
      .keep x y :: seqAlignAux eq n xs ys
    else
      let s1 := consDel x (seqAlignAux eq n xs (y :: ys))
      let s2 := consIns y (seqAlignAux eq n (x :: xs) ys)
      if editCost s1 ≤ editCost s2 then s1 else s2

/-- The alignment core with its sufficient structural bound (the bound only
serves to make the recursion structural; it never runs out). -/
def seqAlign (eq : α → α → Bool) (a b : List α) : List (Chunk α) :=
  seqAlignAux eq (a.length + b.length) a b

/-- Length of the common prefix of two sequences under the predicate (the
free initial diagonal snake of the alignment). -/
def commonPrefixLen (eq : α → α → Bool) : List α → List α → Nat
  | x :: xs, y :: ys => if eq x y then commonPrefixLen eq xs ys + 1 else 0
  | _, _ => 0

/-- Modelled from the spec: the deadline clock shared by the stages; `none`
is an unbounded budget, `some n` a budget of `n` remaining engine steps. -/
abbrev Clock := Option Nat

/-- A budget that has run out. -/
def clockExpired (c : Clock) : Bool := c = some 0

/-- Consume one unit of budget. -/
def clockTick (c : Clock) : Clock := c.map (fun n => n - 1)

/-- Modelled from the spec: one engine invocation at line granularity.  The
common prefix is consumed for free (the d = 0 snake); if the remainder is
nonempty the deadline is consulted and, when expired, the engine aborts with
the coarse one-segment alignment of the remainder and signals the timeout
flag.  Returns (skipped prefix length, chunks of the remainder, timeout flag,
remaining budget). -/
def lineDiffChunks (eq : Line → Line → Bool) (clock : Clock) (a b : List Line) :
    Nat × List (Chunk Line) × Bool × Clock :=
  let p := commonPrefixLen eq a b
  let a2 := a.drop p
  let b2 := b.drop p
  if a2 = [] ∧ b2 = [] then (p, [], false, clock)
  else if clockExpired clock then (p, [.edit a2 b2], true, clock)
  else (p, seqAlign eq a2 b2, false, clockTick clock)

/-- Modelled from the spec: conversion of engine chunks into 1-based
`RangeMapping`s, threading the next unconsumed line number on each side. -/
def chunkMappings (i j : Nat) : List (Chunk α) → List RangeMapping
  | [] => []
  | .keep _ _ :: r => chunkMappings (i + 1) (j + 1) r
  | .edit ds inss :: r =>
    ⟨⟨i, i + ds.length⟩, ⟨j, j + inss.length⟩⟩ ::
      chunkMappings (i + ds.length) (j + inss.length) r

/-! ## Line-Level Differ (§4.2) -/

/-- Leading and trailing whitespace stripped, internal whitespace kept. -/
def trimLine (l : Line) : Line :=
  ((l.dropWhile Char.isWhitespace).reverse.dropWhile Char.isWhitespace).reverse

/-- Modelled from the spec: the comparison key of a line — the raw text, or
the trimmed text when `ignore_trim_whitespace` is set. -/
def lineKey (itw : Bool) (l : Line) : Line :=
  if itw then trimLine l else l

/-- Key equality used by the line-level differ. -/
def eqLine (a b : Line) : Bool := a == b

/-- Number of lines in a range. -/
def rangeSize (r : LineRange) : Nat := r.end_line_exclusive - r.start_line

/-- An empty (pure insertion/deletion point) range. -/
def rangeIsEmpty (r : LineRange) : Bool :=
  r.end_line_exclusive ≤ r.start_line

/-- The lines of a 1-based range. -/
def sliceLines (ls : List Line) (r : LineRange) : List Line :=
  (ls.drop (r.start_line - 1)).take (r.end_line_exclusive - r.start_line)

/-! ## Character-Level Refiner (§4.3) -/

/-- Modelled from the spec: the concatenated character sequence of the
involved lines, with a newline separator between consecutive lines. -/
def joinLines : List Line → List Char
  | [] => []
  | [l] => l
  | l :: l2 :: rest => l ++ '\n' :: joinLines (l2 :: rest)

/-- Map a flat character offset of the concatenated text back to a 1-based
(line, column) position, `lineNo` being the absolute number of the first
involved line. -/
def posOfOffset (lines : List Line) (lineNo : Nat) (off : Nat) : CharPos :=
  match lines with
  | [] => ⟨lineNo, off + 1⟩
  | l :: rest =>
    if off ≤ l.length then ⟨lineNo, off + 1⟩
    else posOfOffset rest (lineNo + 1) (off - l.length - 1)

/-- Modelled from the spec: the character class used by boundary snapping —
a run of alphanumeric characters, a run of whitespace, or a single
punctuation character. -/
def charClass (c : Char) : Nat :=
  if c.isAlphanum then 0 else if c.isWhitespace then 1 else 2

/-- An offset is a word boundary when it sits at either end of the text,
between two characters of different classes, or next to a punctuation
character (which forms a token of its own). -/
def isBoundary (text : List Char) (off : Nat) : Bool :=
  off = 0 || text.length ≤ off ||
    (match text[off - 1]?, text[off]? with
     | some c1, some c2 =>
       charClass c1 ≠ charClass c2 || charClass c1 = 2 || charClass c2 = 2
     | _, _ => true)

/-- Widen an edit start leftwards to the nearest word boundary. -/
def snapLeft (text : List Char) : Nat → Nat
  | 0 => 0
  | o + 1 => if isBoundary text (o + 1) then o + 1 else snapLeft text o

/-- Widen an edit end rightwards to the nearest word boundary (bounded by the
text length, where `isBoundary` always holds). -/
def snapRightAux (text : List Char) (o : Nat) : Nat → Nat
  | 0 => o
  | n + 1 => if isBoundary text o then o else snapRightAux text (o + 1) n

/-- Widen an edit end rightwards to the nearest word boundary. -/
def snapRight (text : List Char) (o : Nat) : Nat :=
  snapRightAux text o (text.length - o)

/-- Modelled from the spec: one engine invocation at character granularity
(exact character equality), reusing the same alignment core.  The caller (the
refiner) has already consulted the deadline for this item, so the invocation
runs to completion.  Returns (skipped prefix length, chunks). -/
def charDiffChunks (a b : List Char) : Nat × List (Chunk Char) :=
  let p := commonPrefixLen (fun c d => c == d) a b
  (p, seqAlign (fun c d => c == d) (a.drop p) (b.drop p))

/-- Convert character-level edit chunks into inner `CharMapping`s, optionally
snapping each edit's boundaries to word boundaries, and mapping flat offsets
back to (line, column) positions. -/
def charChunkEdits (ets : Bool) (textO textM : List Char)
    (oLines mLines : List Line) (oFirst mFirst : Nat) :
    Nat → Nat → List (Chunk Char) → List CharMapping
  | _, _, [] => []
  | i, j, .keep _ _ :: r =>
    charChunkEdits ets textO textM oLines mLines oFirst mFirst (i + 1) (j + 1) r
  | i, j, .edit ds inss :: r =>
    let oS := if ets then snapLeft textO i else i
    let oE := if ets then snapRight textO (i + ds.length) else i + ds.length
    let mS := if ets then snapLeft textM j else j
    let mE := if ets then snapRight textM (j + inss.length) else j + inss.length
    ⟨⟨posOfOffset oLines oFirst oS, posOfOffset oLines oFirst oE⟩,
     ⟨posOfOffset mLines mFirst mS, posOfOffset mLines mFirst mE⟩⟩ ::
      charChunkEdits ets textO textM oLines mLines oFirst mFirst
        (i + ds.length) (j + inss.length) r

/-- Modelled from the spec: the Character-Level Refiner for a single true
modification — re-invoke the engine over the characters of the involved lines
and convert the edit segments into inner character ranges. -/
def refineMapping (ets : Bool) (origL modL : List Line) (m : RangeMapping) :
    DetailedRangeMapping :=
  let oLines := sliceLines origL m.original
  let mLines := sliceLines modL m.modified
  let textO := joinLines oLines
  let textM := joinLines mLines
  let pc := charDiffChunks textO textM
  ⟨m.original, m.modified,
    charChunkEdits ets textO textM oLines mLines
      m.original.start_line m.modified.start_line pc.1 pc.1 pc.2⟩

/-- Modelled from the spec: the refinement pass over all mappings.  Pure
insertions/deletions are promoted with an empty inner list without consuming
budget; before refining a true modification the deadline is consulted, and an
expired deadline skips the remaining refinement work (coarser but valid
output) and raises the timeout flag. -/
def refineAll (ets : Bool) (origL modL : List Line) (clock : Clock) :
    List RangeMapping → List DetailedRangeMapping × Bool × Clock
  | [] => ([], false, clock)
  | m :: rest =>
    if rangeIsEmpty m.original || rangeIsEmpty m.modified then
      let r := refineAll ets origL modL clock rest
      (⟨m.original, m.modified, []⟩ :: r.1, r.2.1, r.2.2)
    else if clockExpired clock then
      let r := refineAll ets origL modL clock rest
      (⟨m.original, m.modified, []⟩ :: r.1, true, r.2.2)
    else
      let d := refineMapping ets origL modL m
      let r := refineAll ets origL modL (clockTick clock) rest
      (d :: r.1, r.2.1, r.2.2)

/-! ## Move Detector (§4.4) -/

/-- Modelled from the spec: the minimum number of matching lines for a block
to qualify as a move.  The spec leaves the constant as implementer-chosen
configuration (§9); the model fixes it to 2, the smallest value consistent
with the spec's own move-detection example (§8). -/
def minMoveLen : Nat := 2

/-- A deleted-only block: nonempty original range, empty modified range. -/
def isDelBlock (m : DetailedRangeMapping) : Bool :=
  m.modified.end_line_exclusive ≤ m.modified.start_line &&
    m.original.start_line < m.original.end_line_exclusive

/-- An inserted-only block: empty original range, nonempty modified range. -/
def isInsBlock (m : DetailedRangeMapping) : Bool :=
  m.original.end_line_exclusive ≤ m.original.start_line &&
    m.modified.start_line < m.modified.end_line_exclusive

/-- Modelled from the spec: a deleted block and an inserted block qualify as
a move when the trimmed content of the two blocks matches line for line, the
block is at least `minMoveLen` lines long, and the content is not
whitespace-only.  (The model's similarity threshold is 1.0 and the matched
run always spans the whole blocks, so no residual lines arise; adjacency
never occurs because maximal edit runs form single segments.) -/
def movMatch (origL modL : List Line) (d i : DetailedRangeMapping) : Bool :=
  isDelBlock d && isInsBlock i &&
    (decide ((sliceLines origL d.original).map trimLine =
             (sliceLines modL i.modified).map trimLine)) &&
    minMoveLen ≤ (sliceLines origL d.original).length &&
    !((sliceLines origL d.original).all (fun l => trimLine l |>.isEmpty))

/-- Modelled from the spec: build the `MovedBlock` for a qualifying pair;
blocks whose matched lines are not byte-identical receive their own
character-level refinement to populate `inner_changes`. -/
def mkMovedBlock (ets : Bool) (origL modL : List Line)
    (d i : DetailedRangeMapping) : MovedBlock :=
  ⟨d.original, i.modified,
    if sliceLines origL d.original = sliceLines modL i.modified then []
    else [refineMapping ets origL modL ⟨d.original, i.modified⟩]⟩

/-- Find the first element satisfying the predicate and return it together
with the list with that occurrence removed. -/
def findRemove (p : DetailedRangeMapping → Bool) :
    List DetailedRangeMapping →
      Option (DetailedRangeMapping × List DetailedRangeMapping)
  | [] => none
  | x :: xs =>
    if p x then some (x, xs)
    else
      match findRemove p xs with
      | none => none
      | some (y, ys) => some (y, x :: ys)

/-- Find a qualifying partner for a candidate block among the remaining
mappings: a matching inserted block for a deleted block, or vice versa.
Returns (deleted side, inserted side, remaining mappings). -/
def grabPartner (origL modL : List Line) (c : DetailedRangeMapping)
    (rest : List DetailedRangeMapping) :
    Option (DetailedRangeMapping × DetailedRangeMapping ×
      List DetailedRangeMapping) :=
  if isDelBlock c then
    match findRemove (fun i => movMatch origL modL c i) rest with
    | none => none
    | some (i, rest2) => some (c, i, rest2)
  else if isInsBlock c then
    match findRemove (fun d => movMatch origL modL d c) rest with
    | none => none
    | some (d, rest2) => some (d, c, rest2)
  else none

/-- Modelled from the spec: scan the final mappings, reclassifying qualifying
deleted/inserted block pairs as moved blocks; all other mappings remain
ordinary changes.  The `fuel` argument bounds the scan (the caller passes the
list length, which always suffices). -/
def extractMovesAux (ets : Bool) (origL modL : List Line) :
    Nat → List DetailedRangeMapping →
      List DetailedRangeMapping × List MovedBlock
  | 0, l => (l, [])
  | _, [] => ([], [])
  | n + 1, c :: rest =>
    match grabPartner origL modL c rest with
    | some (d, i, rest2) =>
      let r := extractMovesAux ets origL modL n rest2
      (r.1, mkMovedBlock ets origL modL d i :: r.2)
    | none =>
      let r := extractMovesAux ets origL modL n rest
      (c :: r.1, r.2)

/-- Modelled from the spec: the Move Detector pass. -/
def extractMoves (ets : Bool) (origL modL : List Line)
    (l : List DetailedRangeMapping) :
    List DetailedRangeMapping × List MovedBlock :=
  extractMovesAux ets origL modL l.length l

/-- Insert a moved block into a list sorted by ascending original start
line. -/
def insertMove (m : MovedBlock) : List MovedBlock → List MovedBlock
  | [] => [m]
  | x :: xs =>
    if m.original.start_line ≤ x.original.start_line then m :: x :: xs
    else x :: insertMove m xs

/-- Sort moved blocks by ascending original start line (insertion sort). -/
def sortMoves : List MovedBlock → List MovedBlock
  | [] => []
  | m :: ms => insertMove m (sortMoves ms)

/-! ## Orchestrator (§4.5, §6) -/

/-- Modelled from the spec: the top-level `compute_diff` entry point of the
missing implementation (the `DefaultLinesDiffComputer` the test suite calls).
The single deadline clock is derived from `max_computation_time_ms`
(0 = unbounded); since wall-clock speed is outside the model, a positive
millisecond budget is abstracted as a caller-chosen number `fuel` of engine
steps.  Stages run in order: line-level diff, character-level refinement,
optional move detection; the timeout flag is raised exactly by the stages
that cut work short. -/
def compute_diff (original modified : List Line) (opts : DiffOptions)
    (fuel : Nat) : LinesDiff :=
  let clock0 : Clock :=
    if opts.max_computation_time_ms = 0 then none else some fuel
  let keysO := original.map (lineKey opts.ignore_trim_whitespace)
  let keysM := modified.map (lineKey opts.ignore_trim_whitespace)
  let r1 := lineDiffChunks eqLine clock0 keysO keysM
  let maps := chunkMappings (r1.1 + 1) (r1.1 + 1) r1.2.1
  let r2 := refineAll opts.extend_to_subwords original modified r1.2.2.2 maps
  let cm :=
    if opts.compute_moves then
      extractMoves opts.extend_to_subwords original modified r2.1
    else (r2.1, [])
  ⟨cm.1, sortMoves cm.2, r1.2.2.1 || r2.2.1⟩

/-! ## Vocabulary for the verified properties -/

/-- The deleted (original-side) elements of an alignment, in order: the
source sequence the alignment consumes. -/
def flatSrc : List (Chunk α) → List α
  | [] => []
  | .keep a _ :: r => a :: flatSrc r
  | .edit ds _ :: r => ds ++ flatSrc r

/-- The inserted (modified-side) elements of an alignment, in order: the
destination sequence the alignment produces. -/
def flatDst : List (Chunk α) → List α
  | [] => []
  | .keep _ b :: r => b :: flatDst r
  | .edit _ inss :: r => inss ++ flatDst r

/-- Every edit chunk whose two sides are nonempty starts with a pair of
elements that differ under the predicate (so no segment pairs content that
the differ classifies as equal). -/
def EditHeadsNE (eq : α → α → Bool) : List (Chunk α) → Prop
  | [] => True
  | .keep _ _ :: r => EditHeadsNE eq r
  | .edit ds inss :: r =>
    (∀ d i2, ds.head? = some d → inss.head? = some i2 → eq d i2 = false) ∧
      EditHeadsNE eq r

/-- Chain invariant of a range list: starts bounded below, each range
well-formed, each range ending before the next starts. -/
def ChainedR : Nat → List LineRange → Prop
  | _, [] => True
  | lo, r :: rest =>
    lo ≤ r.start_line ∧ r.start_line ≤ r.end_line_exclusive ∧
      ChainedR r.end_line_exclusive rest

/-- Two-sided chain invariant of a mapping list. -/
def ChainedM : Nat → Nat → List RangeMapping → Prop
  | _, _, [] => True
  | lo, lm, m :: rest =>
    lo ≤ m.original.start_line ∧
      m.original.start_line ≤ m.original.end_line_exclusive ∧
      lm ≤ m.modified.start_line ∧
      m.modified.start_line ≤ m.modified.end_line_exclusive ∧
      ChainedM m.original.end_line_exclusive m.modified.end_line_exclusive rest

/-- Total number of lines covered by a list of ranges. -/
def sumSizes (rs : List LineRange) : Nat := (rs.map rangeSize).sum

/-- Whether a 1-based line number falls inside a range. -/
def lineInRange (n : Nat) (r : LineRange) : Bool :=
  r.start_line ≤ n && n < r.end_line_exclusive

/-- Whether a line is covered by some range of the list. -/
def coveredBy (rs : List LineRange) (n : Nat) : Bool :=
  rs.any (lineInRange n)

/-- All original-side ranges a result reports (ordinary changes and moves). -/
def origRanges (r : LinesDiff) : List LineRange :=
  r.changes.map (fun c => c.original) ++ r.moves.map (fun m => m.original)

/-- All modified-side ranges a result reports. -/
def modRanges (r : LinesDiff) : List LineRange :=
  r.changes.map (fun c => c.modified) ++ r.moves.map (fun m => m.modified)

/-- Two ranges share no line. -/
def RangesDisjoint (r s : LineRange) : Prop :=
  ∀ n, ¬(lineInRange n r = true ∧ lineInRange n s = true)

/-- A whitespace-only change: both sides nonempty and the involved lines
equal after trimming. -/
def wsOnlyChange (origL modL : List Line) (m : DetailedRangeMapping) : Prop :=
  m.original.start_line < m.original.end_line_exclusive ∧
    m.modified.start_line < m.modified.end_line_exclusive ∧
    (sliceLines origL m.original).map trimLine =
      (sliceLines modL m.modified).map trimLine

/-- A position lies within the column bounds of its line (columns are
1-based and may point one past the end of the line). -/
def colBoundOk (lines : List Line) (firstLine : Nat) (p : CharPos) : Bool :=
  match lines[p.line - firstLine]? with
  | some l => 1 ≤ p.column && p.column ≤ l.length + 1
  | none => false

/-- Both endpoints of a character range lie within column bounds. -/
def charRangeWithin (lines : List Line) (firstLine : Nat) (r : CharRange) : Bool :=
  colBoundOk lines firstLine r.start && colBoundOk lines firstLine r.stop

/-- Every inner edit of a detailed mapping lies within the column bounds of
the two line ranges it refines. -/
def innerWithinBounds (origL modL : List Line) (m : DetailedRangeMapping) : Bool :=
  m.inner_changes.all fun ic =>
    charRangeWithin (sliceLines origL m.original) m.original.start_line
        ic.original &&
      charRangeWithin (sliceLines modL m.modified) m.modified.start_line
        ic.modified

/-- The plain range pair of a detailed mapping. -/
def drmRanges (d : DetailedRangeMapping) : RangeMapping :=
  ⟨d.original, d.modified⟩

theorem fgetsAux_length_le (n : Nat) (l : List Char) :
    (fgetsAux n l).length ≤ n := by
  induction n generalizing l with
  | zero => simp [fgetsAux]
  | succ m ih =>
    cases l with
    | nil => simp [fgetsAux]
    | cons c cs =>
      simp only [fgetsAux]
      split
      · simp
      · simpa using Nat.succ_le_succ (ih cs)

theorem cString_length_le (l : List Char) : (cString l).length ≤ l.length := by
  induction l with
  | nil => simp [cString]
  | cons c cs ih =>
    simp only [cString, List.takeWhile_cons]
    split
    · simpa [cString] using Nat.succ_le_succ ih
    · simp

theorem stripTrailingNewline_length_le (l : List Char) :
    (stripTrailingNewline l).length ≤ l.length := by
  unfold stripTrailingNewline
  split
  · simp
  · exact Nat.le_refl _

/-- Auxiliary: on NUL-free content, the buffer pipeline of
`read_version_from_file` computes the first line truncated to the fuel. -/
theorem fgets_strip_eq_firstLine (n : Nat) (content : List Char)
    (hnul : '\x00' ∉ content) :
    stripTrailingNewline (cString (fgetsAux n content)) =
      (firstLineOf content).take n := by
  induction content generalizing n with
  | nil =>
    cases n <;> simp [fgetsAux, cString, stripTrailingNewline, firstLineOf]
  | cons c cs ih =>
    have hc : c ≠ '\x00' := fun h => hnul (h ▸ List.mem_cons_self c cs)
    have hcs : '\x00' ∉ cs := fun h => hnul (List.mem_cons_of_mem c h)
    cases n with
    | zero => simp [fgetsAux, cString, stripTrailingNewline, firstLineOf]
    | succ m =>
      by_cases hnl : c = '\n'
      · subst hnl
        simp [fgetsAux, cString, stripTrailingNewline, firstLineOf]
      · have htail := ih m
        simp only [fgetsAux, if_neg hnl]
        have hcons : cString (c :: fgetsAux m cs) = c :: cString (fgetsAux m cs) := by
          simp [cString, List.takeWhile_cons, hc]
        rw [hcons]
        have hfl : firstLineOf (c :: cs) = c :: firstLineOf cs := by
          simp [firstLineOf, List.takeWhile_cons, hnl]
        rw [hfl, List.take_succ_cons]
        rcases h : cString (fgetsAux m cs) with _ | ⟨d, ds⟩
        · -- the tail buffer is empty: either fuel ran out or the file ended
          have : (firstLineOf cs).take m = [] := by
            rw [← htail hcs, h]
            simp [stripTrailingNewline]
          rw [this]
          simp [stripTrailingNewline, List.getLast?_singleton, hnl]
        · have hlast : (c :: d :: ds).getLast? = (d :: ds).getLast? := by
            simp [List.getLast?_cons_cons]
          rw [← htail hcs, h]
          simp only [stripTrailingNewline, hlast]
          split
          · rcases hd : (d :: ds).dropLast with _ | _ <;> simp [hd]
          · rfl

/-- `read_version_from_file` never returns more than 31 characters. -/
theorem readVersionOnce_length_le (file : Option (List Char)) :
    (readVersionOnce file).length ≤ 31 := by
  cases file with
  | none => simp [readVersionOnce]
  | some content =>
    simp only [readVersionOnce]
    split
    · simp
    · exact Nat.le_trans
        (Nat.le_trans (stripTrailingNewline_length_le _) (cString_length_le _))
        (fgetsAux_length_le 31 content)

/-! ## Lemmas: the alignment core consumes exactly its two inputs -/

theorem flatSrc_consDel (x : α) (cs : List (Chunk α)) :
    flatSrc (consDel x cs) = x :: flatSrc cs := by
  cases cs with
  | nil => rfl
  | cons c r => cases c <;> rfl

theorem flatDst_consDel (x : α) (cs : List (Chunk α)) :
    flatDst (consDel x cs) = flatDst cs := by
  cases cs with
  | nil => rfl
  | cons c r => cases c <;> rfl

theorem flatSrc_consIns (y : α) (cs : List (Chunk α)) :
    flatSrc (consIns y cs) = flatSrc cs := by
  cases cs with
  | nil => rfl
  | cons c r => cases c <;> rfl

theorem flatDst_consIns (y : α) (cs : List (Chunk α)) :
    flatDst (consIns y cs) = y :: flatDst cs := by
  cases cs with
  | nil => rfl
  | cons c r => cases c <;> rfl

theorem seqAlignAux_flatSrc (eq : α → α → Bool) (n : Nat) (a b : List α) :
    flatSrc (seqAlignAux eq n a b) = a := by
  induction n generalizing a b with
  | zero => cases a <;> cases b <;> simp [seqAlignAux, flatSrc]
  | succ m ih =>
    cases a with
    | nil => cases b <;> simp [seqAlignAux, flatSrc]
    | cons x xs =>
      cases b with
      | nil => simp [seqAlignAux, flatSrc]
      | cons y ys =>
        simp only [seqAlignAux]
        split
        · simp [flatSrc, ih]
        · split
          · simp [flatSrc_consDel, ih]
          · simp [flatSrc_consIns, ih]

theorem seqAlignAux_flatDst (eq : α → α → Bool) (n : Nat) (a b : List α) :
    flatDst (seqAlignAux eq n a b) = b := by
  induction n generalizing a b with
  | zero => cases a <;> cases b <;> simp [seqAlignAux, flatDst]
  | succ m ih =>
    cases a with
    | nil => cases b <;> simp [seqAlignAux, flatDst]
    | cons x xs =>
      cases b with
      | nil => simp [seqAlignAux, flatDst]
      | cons y ys =>
        simp only [seqAlignAux]
        split
        · simp [flatDst, ih]
        · split
          · simp [flatDst_consDel, ih]
          · simp [flatDst_consIns, ih]

theorem seqAlign_flatSrc (eq : α → α → Bool) (a b : List α) :
    flatSrc (seqAlign eq a b) = a := seqAlignAux_flatSrc ..

theorem seqAlign_flatDst (eq : α → α → Bool) (a b : List α) :
    flatDst (seqAlign eq a b) = b := seqAlignAux_flatDst ..

/-! ## Lemmas: common prefix -/

theorem commonPrefixLen_le_left (eq : α → α → Bool) (a b : List α) :
    commonPrefixLen eq a b ≤ a.length := by
  induction a generalizing b with
  | nil => cases b <;> simp [commonPrefixLen]
  | cons x xs ih =>
    cases b with
    | nil => simp [commonPrefixLen]
    | cons y ys =>
      simp only [commonPrefixLen]
      split
      · simpa using ih ys
      · simp

theorem commonPrefixLen_le_right (eq : α → α → Bool) (a b : List α) :
    commonPrefixLen eq a b ≤ b.length := by
  induction a generalizing b with
  | nil => cases b <;> simp [commonPrefixLen]
  | cons x xs ih =>
    cases b with
    | nil => simp [commonPrefixLen]
    | cons y ys =>
      simp only [commonPrefixLen]
      split
      · simpa using ih ys
      · simp

theorem commonPrefixLen_refl (eq : α → α → Bool) (h : ∀ x, eq x x = true)
    (l : List α) : commonPrefixLen eq l l = l.length := by
  induction l with
  | nil => simp [commonPrefixLen]
  | cons x xs ih => simp [commonPrefixLen, h x, ih]

theorem commonPrefixLen_drop_ne (eq : α → α → Bool) (a b : List α)
    {x y : α} {xs ys : List α}
    (ha : a.drop (commonPrefixLen eq a b) = x :: xs)
    (hb : b.drop (commonPrefixLen eq a b) = y :: ys) : eq x y = false := by
  induction a generalizing b with
  | nil => simp at ha
  | cons x0 xs0 ih =>
    cases b with
    | nil => simp [commonPrefixLen] at hb
    | cons y0 ys0 =>
      by_cases h : eq x0 y0 = true
      · have hc : commonPrefixLen eq (x0 :: xs0) (y0 :: ys0) =
            commonPrefixLen eq xs0 ys0 + 1 := by
          simp [commonPrefixLen, h]
        rw [hc, List.drop_succ_cons] at ha hb
        exact ih ys0 ha hb
      · have hc : commonPrefixLen eq (x0 :: xs0) (y0 :: ys0) = 0 := by
          simp only [commonPrefixLen]
          simp [h]
        rw [hc, List.drop_zero] at ha hb
        cases ha; cases hb
        simpa using h

/-! ## Lemmas: edit chunks start with a differing pair -/

theorem seqAlignAux_edit_heads (eq : α → α → Bool) (n : Nat) (a b : List α)
    {ds inss : List α} {rest : List (Chunk α)}
    (h : seqAlignAux eq n a b = .edit ds inss :: rest) :
    (∀ d, ds.head? = some d → a.head? = some d) ∧
    (∀ i2, inss.head? = some i2 → b.head? = some i2) := by
  induction n generalizing a b ds inss rest with
  | zero =>
    cases a <;> cases b <;> simp only [seqAlignAux] at h
    · exact absurd h (by simp)
    all_goals
      injection h with hhd htl
      injection hhd with h1 h2
      subst h1; subst h2
      exact ⟨fun d hd => hd, fun i2 hi => hi⟩
  | succ m ih =>
    cases a with
    | nil =>
      cases b <;> simp only [seqAlignAux] at h
      · exact absurd h (by simp)
      · injection h with hhd htl
        injection hhd with h1 h2
        subst h1; subst h2
        exact ⟨fun d hd => hd, fun i2 hi => hi⟩
    | cons x xs =>
      cases b with
      | nil =>
        simp only [seqAlignAux] at h
        injection h with hhd htl
        injection hhd with h1 h2
        subst h1; subst h2
        exact ⟨fun d hd => hd, fun i2 hi => hi⟩
      | cons y ys =>
        simp only [seqAlignAux] at h
        split at h
        · exact absurd h (by simp)
        · split at h
          · -- deletion-first branch
            rcases hS1 : seqAlignAux eq m xs (y :: ys) with _ | ⟨c, r⟩ <;>
              rw [hS1] at h
            · simp only [consDel] at h
              injection h with hhd htl
              injection hhd with h1 h2
              subst h1; subst h2
              refine ⟨fun d hd => ?_, fun i2 hi => by simp at hi⟩
              simp only [List.head?_cons, Option.some.injEq] at hd ⊢
              exact hd
            · cases c with
              | keep a0 b0 =>
                simp only [consDel] at h
                injection h with hhd htl
                injection hhd with h1 h2
                subst h1; subst h2
                refine ⟨fun d hd => ?_, fun i2 hi => by simp at hi⟩
                simp only [List.head?_cons, Option.some.injEq] at hd ⊢
                exact hd
              | edit ds' is' =>
                simp only [consDel] at h
                injection h with hhd htl
                injection hhd with h1 h2
                subst h1; subst h2
                refine ⟨fun d hd => ?_, fun i2 hi => ?_⟩
                · simp only [List.head?_cons, Option.some.injEq] at hd ⊢
                  exact hd
                · exact (ih xs (y :: ys) hS1).2 i2 hi
          · -- insertion-first branch
            rcases hS2 : seqAlignAux eq m (x :: xs) ys with _ | ⟨c, r⟩ <;>
              rw [hS2] at h
            · simp only [consIns] at h
              injection h with hhd htl
              injection hhd with h1 h2
              subst h1; subst h2
              refine ⟨fun d hd => by simp at hd, fun i2 hi => ?_⟩
              simp only [List.head?_cons, Option.some.injEq] at hi ⊢
              exact hi
            · cases c with
              | keep a0 b0 =>
                simp only [consIns] at h
                injection h with hhd htl
                injection hhd with h1 h2
                subst h1; subst h2
                refine ⟨fun d hd => by simp at hd, fun i2 hi => ?_⟩
                simp only [List.head?_cons, Option.some.injEq] at hi ⊢
                exact hi
              | edit ds' is' =>
                simp only [consIns] at h
                injection h with hhd htl
                injection hhd with h1 h2
                subst h1; subst h2
                refine ⟨fun d hd => ?_, fun i2 hi => ?_⟩
                · exact (ih (x :: xs) ys hS2).1 d hd
                · simp only [List.head?_cons, Option.some.injEq] at hi ⊢
                  exact hi

theorem seqAlignAux_editHeadsNE (eq : α → α → Bool) (n : Nat) (a b : List α)
    (hlen : a.length + b.length ≤ n) :
    EditHeadsNE eq (seqAlignAux eq n a b) := by
  induction n generalizing a b with
  | zero =>
    cases a with
    | nil =>
      cases b with
      | nil => trivial
      | cons y ys => simp at hlen
    | cons x xs => simp at hlen
  | succ m ih =>
    cases a with
    | nil =>
      cases b with
      | nil => trivial
      | cons y ys =>
        refine ⟨fun d i2 hd hi => ?_, trivial⟩
        simp at hd
    | cons x xs =>
      cases b with
      | nil =>
        refine ⟨fun d i2 hd hi => ?_, trivial⟩
        simp at hi
      | cons y ys =>
        simp only [seqAlignAux]
        split
        · show EditHeadsNE eq (.keep x y :: seqAlignAux eq m xs ys)
          show EditHeadsNE eq (seqAlignAux eq m xs ys)
          apply ih
          simp only [List.length_cons] at hlen
          omega
        · rename_i hne
          have hxy : eq x y = false := by
            simpa using hne
          split
          · -- deletion-first branch chosen
            have hS1len : xs.length + (y :: ys).length ≤ m := by
              simp only [List.length_cons] at hlen ⊢
              omega
            have hIH := ih xs (y :: ys) hS1len
            rcases hS1 : seqAlignAux eq m xs (y :: ys) with _ | ⟨c, r⟩
            · exact ⟨fun d i2 hd hi => by simp at hi, trivial⟩
            · rw [hS1] at hIH
              cases c with
              | keep a0 b0 =>
                exact ⟨fun d i2 hd hi => by simp at hi, hIH⟩
              | edit ds' is' =>
                refine ⟨fun d i2 hd hi => ?_, hIH.2⟩
                simp only [consDel, List.head?_cons, Option.some.injEq] at hd
                subst hd
                have := (seqAlignAux_edit_heads eq m xs (y :: ys) hS1).2 i2 hi
                simp only [List.head?_cons, Option.some.injEq] at this
                subst this
                exact hxy
          · -- insertion-first branch chosen
            have hS2len : (x :: xs).length + ys.length ≤ m := by
              simp only [List.length_cons] at hlen ⊢
              omega
            have hIH := ih (x :: xs) ys hS2len
            rcases hS2 : seqAlignAux eq m (x :: xs) ys with _ | ⟨c, r⟩
            · exact ⟨fun d i2 hd hi => by simp at hd, trivial⟩
            · rw [hS2] at hIH
              cases c with
              | keep a0 b0 =>
                exact ⟨fun d i2 hd hi => by simp at hd, hIH⟩
              | edit ds' is' =>
                refine ⟨fun d i2 hd hi => ?_, hIH.2⟩
                simp only [consIns, List.head?_cons, Option.some.injEq] at hi
                subst hi
                have := (seqAlignAux_edit_heads eq m (x :: xs) ys hS2).1 d hd
                simp only [List.head?_cons, Option.some.injEq] at this
                subst this
                exact hxy

theorem seqAlign_editHeadsNE (eq : α → α → Bool) (a b : List α) :
    EditHeadsNE eq (seqAlign eq a b) :=
  seqAlignAux_editHeadsNE eq (a.length + b.length) a b (Nat.le_refl _)

/-! ## Lemmas: chunk-to-mapping conversion -/

theorem chainedM_mono {lo lm lo' lm' : Nat} (hlo : lo' ≤ lo) (hlm : lm' ≤ lm)
    {ms : List RangeMapping} (h : ChainedM lo lm ms) : ChainedM lo' lm' ms := by
  cases ms with
  | nil => trivial
  | cons m rest =>
    obtain ⟨h1, h2, h3, h4, h5⟩ := h
    exact ⟨Nat.le_trans hlo h1, h2, Nat.le_trans hlm h3, h4, h5⟩

theorem chunkMappings_chained (cs : List (Chunk α)) :
    ∀ i j, ChainedM i j (chunkMappings i j cs) := by
  induction cs with
  | nil => intro i j; trivial
  | cons c rest ih =>
    intro i j
    cases c with
    | keep a b =>
      simpa only [chunkMappings] using
        chainedM_mono (Nat.le_succ i) (Nat.le_succ j) (ih (i + 1) (j + 1))
    | edit ds inss =>
      simp only [chunkMappings]
      exact ⟨Nat.le_refl _, Nat.le_add_right .., Nat.le_refl _,
        Nat.le_add_right .., ih ..⟩

theorem chunkMappings_bounds (cs : List (Chunk α)) :
    ∀ i j m, m ∈ chunkMappings i j cs →
      m.original.end_line_exclusive ≤ i + (flatSrc cs).length ∧
      m.modified.end_line_exclusive ≤ j + (flatDst cs).length := by
  induction cs with
  | nil => intro i j m hm; simp [chunkMappings] at hm
  | cons c rest ih =>
    intro i j m hm
    cases c with
    | keep a b =>
      simp only [chunkMappings] at hm
      have h := ih _ _ m hm
      simp only [flatSrc, flatDst, List.length_cons]
      omega
    | edit ds inss =>
      simp only [chunkMappings, List.mem_cons] at hm
      rcases hm with rfl | hm
      · simp only [flatSrc, flatDst, List.length_append]
        constructor <;> omega
      · have h := ih _ _ m hm
        simp only [flatSrc, flatDst, List.length_append]
        omega

theorem sliceLines_map (f : Line → Line) (l : List Line) (r : LineRange) :
    sliceLines (l.map f) r = (sliceLines l r).map f := by
  simp [sliceLines, ← List.map_take, ← List.map_drop]

/-- For every mapping produced from an alignment whose edit chunks start
with differing pairs, the first lines of the two slices differ under the
predicate. -/
theorem chunkMappings_slices (eq : Line → Line → Bool) (cs : List (Chunk Line)) :
    ∀ (i j : Nat) (KO KM : List Line), 1 ≤ i → 1 ≤ j →
      KO.drop (i - 1) = flatSrc cs → KM.drop (j - 1) = flatDst cs →
      EditHeadsNE eq cs →
      ∀ m ∈ chunkMappings i j cs,
        (sliceLines KO m.original).length = rangeSize m.original ∧
        (sliceLines KM m.modified).length = rangeSize m.modified ∧
        ∀ d i2, (sliceLines KO m.original).head? = some d →
          (sliceLines KM m.modified).head? = some i2 → eq d i2 = false := by
  induction cs with
  | nil => intro i j KO KM _ _ _ _ _ m hm; simp [chunkMappings] at hm
  | cons c rest ih =>
    intro i j KO KM hi hj hKO hKM hne m hm
    cases c with
    | keep a b =>
      simp only [chunkMappings] at hm
      refine ih (i + 1) (j + 1) KO KM (by omega) (by omega) ?_ ?_ hne m hm
      · have h1 : KO.drop (i + 1 - 1) = (KO.drop (i - 1)).drop 1 := by
          rw [List.drop_drop]
          congr 1
          omega
        rw [h1, hKO]
        rfl
      · have h1 : KM.drop (j + 1 - 1) = (KM.drop (j - 1)).drop 1 := by
          rw [List.drop_drop]
          congr 1
          omega
        rw [h1, hKM]
        rfl
    | edit ds inss =>
      simp only [flatSrc] at hKO
      simp only [flatDst] at hKM
      obtain ⟨hcond, hrest⟩ := hne
      simp only [chunkMappings, List.mem_cons] at hm
      rcases hm with rfl | hm
      · have hslO : sliceLines KO (⟨i, i + ds.length⟩ : LineRange) = ds := by
          simp only [sliceLines]
          have h2 : i + ds.length - i = ds.length := by omega
          simp only [h2, hKO]
          exact List.take_left ds _
        have hslM : sliceLines KM (⟨j, j + inss.length⟩ : LineRange) = inss := by
          simp only [sliceLines]
          have h2 : j + inss.length - j = inss.length := by omega
          simp only [h2, hKM]
          exact List.take_left inss _
        refine ⟨?_, ?_, ?_⟩
        · rw [hslO]
          simp [rangeSize]
        · rw [hslM]
          simp [rangeSize]
        · intro d i2 hd hi2
          apply hcond d i2
          · rw [hslO] at hd
            exact hd
          · rw [hslM] at hi2
            exact hi2
      · refine ih (i + ds.length) (j + inss.length) KO KM (by omega) (by omega)
          ?_ ?_ hrest m hm
        · have h1 : KO.drop (i + ds.length - 1) =
              (KO.drop (i - 1)).drop ds.length := by
            rw [List.drop_drop]
            congr 1
            omega
          rw [h1, hKO]
          exact List.drop_left ds _
        · have h1 : KM.drop (j + inss.length - 1) =
              (KM.drop (j - 1)).drop inss.length := by
            rw [List.drop_drop]
            congr 1
            omega
          rw [h1, hKM]
          exact List.drop_left inss _

/-! ## Lemmas: one-sided chains, sortedness and the partition count -/

theorem chainedR_of_chainedM {lo lm : Nat} {ms : List RangeMapping}
    (h : ChainedM lo lm ms) :
    ChainedR lo (ms.map fun m => m.original) ∧
      ChainedR lm (ms.map fun m => m.modified) := by
  induction ms generalizing lo lm with
  | nil => exact ⟨trivial, trivial⟩
  | cons m rest ih =>
    obtain ⟨h1, h2, h3, h4, h5⟩ := h
    obtain ⟨ha, hb⟩ := ih h5
    exact ⟨⟨h1, h2, ha⟩, ⟨h3, h4, hb⟩⟩

theorem chainedR_mono (lo' : Nat) {lo : Nat} (hle : lo' ≤ lo)
    {rs : List LineRange} (h : ChainedR lo rs) : ChainedR lo' rs := by
  cases rs with
  | nil => trivial
  | cons r rest =>
    obtain ⟨h1, h2, h3⟩ := h
    exact ⟨Nat.le_trans hle h1, h2, h3⟩

theorem chainedR_lb {rs : List LineRange} :
    ∀ {lo}, ChainedR lo rs → ∀ r ∈ rs, lo ≤ r.start_line := by
  induction rs with
  | nil => intro lo _ r hr; simp at hr
  | cons r rest ih =>
    intro lo h s hs
    obtain ⟨h1, h2, h3⟩ := h
    rcases List.mem_cons.mp hs with rfl | hs
    · exact h1
    · exact Nat.le_trans (Nat.le_trans h1 h2) (ih h3 s hs)

theorem chainedR_wf {rs : List LineRange} :
    ∀ {lo}, ChainedR lo rs →
      ∀ r ∈ rs, r.start_line ≤ r.end_line_exclusive := by
  induction rs with
  | nil => intro lo _ r hr; simp at hr
  | cons r rest ih =>
    intro lo h s hs
    obtain ⟨h1, h2, h3⟩ := h
    rcases List.mem_cons.mp hs with rfl | hs
    · exact h2
    · exact ih h3 s hs

theorem chainedR_pairwise {rs : List LineRange} :
    ∀ {lo}, ChainedR lo rs →
      List.Pairwise (fun a b => a.end_line_exclusive ≤ b.start_line) rs := by
  induction rs with
  | nil => intro lo _; exact List.Pairwise.nil
  | cons r rest ih =>
    intro lo h
    obtain ⟨h1, h2, h3⟩ := h
    exact List.Pairwise.cons (fun s hs => chainedR_lb h3 s hs) (ih h3)

theorem chained_partition (rs : List LineRange) :
    ∀ lo hi, ChainedR lo rs → (∀ r ∈ rs, r.end_line_exclusive ≤ hi) →
      sumSizes rs +
        ((Finset.Ico lo hi).filter (fun n => coveredBy rs n = false)).card =
        hi - lo := by
  induction rs with
  | nil =>
    intro lo hi _ _
    simp [sumSizes, coveredBy, Nat.card_Ico]
  | cons r rest ih =>
    intro lo hi hch hhi
    obtain ⟨h1, h2, h3⟩ := hch
    have hrhi : r.end_line_exclusive ≤ hi := hhi r (List.mem_cons_self ..)
    have hresthi : ∀ s ∈ rest, s.end_line_exclusive ≤ hi := fun s hs =>
      hhi s (List.mem_cons_of_mem _ hs)
    have hIH := ih r.end_line_exclusive hi h3 hresthi
    have hsplit : Finset.Ico lo hi =
        Finset.Ico lo r.end_line_exclusive ∪
          Finset.Ico r.end_line_exclusive hi :=
      (Finset.Ico_union_Ico_eq_Ico (by omega) hrhi).symm
    rw [hsplit, Finset.filter_union,
      Finset.card_union_of_disjoint
        (Finset.disjoint_filter_filter (Finset.Ico_disjoint_Ico_consecutive ..))]
    have hB : (Finset.Ico r.end_line_exclusive hi).filter
          (fun n => coveredBy (r :: rest) n = false) =
        (Finset.Ico r.end_line_exclusive hi).filter
          (fun n => coveredBy rest n = false) := by
      apply Finset.filter_congr
      intro n hn
      simp only [Finset.mem_Ico] at hn
      have hr0 : lineInRange n r = false := by
        simp only [lineInRange, Bool.and_eq_false_iff]
        right
        simp
        omega
      simp [coveredBy, hr0]
    have hA : (Finset.Ico lo r.end_line_exclusive).filter
          (fun n => coveredBy (r :: rest) n = false) =
        Finset.Ico lo r.start_line := by
      ext n
      simp only [Finset.mem_filter, Finset.mem_Ico]
      constructor
      · rintro ⟨⟨hl, hr⟩, hcov⟩
        refine ⟨hl, ?_⟩
        by_contra hlt
        push_neg at hlt
        have hin : lineInRange n r = true := by
          simp only [lineInRange, Bool.and_eq_true, decide_eq_true_eq]
          omega
        simp [coveredBy, hin] at hcov
      · rintro ⟨hl, hr⟩
        have hnlt : n < r.end_line_exclusive := by omega
        refine ⟨⟨hl, hnlt⟩, ?_⟩
        have hr0 : lineInRange n r = false := by
          simp only [lineInRange, Bool.and_eq_false_iff]
          left
          simp
          omega
        have hrestf : coveredBy rest n = false := by
          simp only [coveredBy, List.any_eq_false]
          intro s hs
          have hlb := chainedR_lb h3 s hs
          simp only [lineInRange, Bool.and_eq_true, decide_eq_true_eq, not_and]
          omega
        simp only [coveredBy, List.any_cons, hr0]
        simp only [coveredBy] at hrestf
        simp [hrestf]
    rw [hA, hB]
    simp only [sumSizes, List.map_cons, List.sum_cons, Nat.card_Ico] at *
    simp only [rangeSize] at *
    omega

/-! ## Lemmas: the line-level engine wrapper -/

theorem lineDiffChunks_spec (eq : Line → Line → Bool) (clock : Clock)
    (a b : List Line) :
    (lineDiffChunks eq clock a b).1 = commonPrefixLen eq a b ∧
    flatSrc (lineDiffChunks eq clock a b).2.1 =
      a.drop (commonPrefixLen eq a b) ∧
    flatDst (lineDiffChunks eq clock a b).2.1 =
      b.drop (commonPrefixLen eq a b) ∧
    EditHeadsNE eq (lineDiffChunks eq clock a b).2.1 := by
  simp only [lineDiffChunks]
  split
  · rename_i h
    exact ⟨rfl, by simp [flatSrc, h.1], by simp [flatDst, h.2], trivial⟩
  · split
    · refine ⟨rfl, by simp [flatSrc], by simp [flatDst], ?_, trivial⟩
      intro d i2 hd hi2
      rcases hda : a.drop (commonPrefixLen eq a b) with _ | ⟨d0, t⟩ <;>
        rw [hda] at hd
      · simp at hd
      rcases hdb : b.drop (commonPrefixLen eq a b) with _ | ⟨i0, t2⟩ <;>
        rw [hdb] at hi2
      · simp at hi2
      simp only [List.head?_cons, Option.some.injEq] at hd hi2
      subst hd; subst hi2
      exact commonPrefixLen_drop_ne eq a b hda hdb
    · exact ⟨rfl, seqAlign_flatSrc .., seqAlign_flatDst .., seqAlign_editHeadsNE ..⟩

theorem lineDiffChunks_none (eq : Line → Line → Bool) (a b : List Line) :
    (lineDiffChunks eq none a b).2.2.1 = false ∧
    (lineDiffChunks eq none a b).2.2.2 = none := by
  simp only [lineDiffChunks]
  split
  · exact ⟨rfl, rfl⟩
  · split
    · rename_i hexp
      simp [clockExpired] at hexp
    · exact ⟨rfl, rfl⟩

theorem lineDiffChunks_clock_irrel (eq : Line → Line → Bool) (c : Clock)
    (a b : List Line) (h : (lineDiffChunks eq c a b).2.2.1 = false) :
    (lineDiffChunks eq none a b).1 = (lineDiffChunks eq c a b).1 ∧
    (lineDiffChunks eq none a b).2.1 = (lineDiffChunks eq c a b).2.1 := by
  simp only [lineDiffChunks] at h ⊢
  split at h
  · rename_i hcond
    simp only [if_pos hcond]
    exact ⟨by trivial, by trivial⟩
  · rename_i hcond
    split at h
    · simp at h
    · rename_i hexp
      simp only [if_neg hcond]
      have : clockExpired (none : Clock) = false := rfl
      simp only [this, Bool.false_eq_true, if_false]
      rw [if_neg hexp]
      exact ⟨by trivial, by trivial⟩

/-! ## Lemmas: the refinement pass -/

theorem refineAll_ranges (ets : Bool) (oL mL : List Line)
    (maps : List RangeMapping) :
    ∀ c : Clock, (refineAll ets oL mL c maps).1.map drmRanges = maps := by
  induction maps with
  | nil => intro c; rfl
  | cons m rest ih =>
    intro c
    simp only [refineAll]
    split
    · simp only [List.map_cons, ih]
      rfl
    · split
      · simp only [List.map_cons, ih]
        rfl
      · simp only [List.map_cons, ih]
        rfl

theorem refineAll_none (ets : Bool) (oL mL : List Line)
    (maps : List RangeMapping) :
    (refineAll ets oL mL none maps).2.1 = false ∧
    (refineAll ets oL mL none maps).2.2 = none := by
  induction maps with
  | nil => exact ⟨rfl, rfl⟩
  | cons m rest ih =>
    simp only [refineAll]
    split
    · exact ih
    · split
      · rename_i hexp
        simp [clockExpired] at hexp
      · have : clockTick none = none := rfl
        rw [this]
        exact ih

theorem refineAll_clock_irrel (ets : Bool) (oL mL : List Line) :
    ∀ (maps : List RangeMapping) (c : Clock),
      (refineAll ets oL mL c maps).2.1 = false →
      (refineAll ets oL mL none maps).1 = (refineAll ets oL mL c maps).1 := by
  intro maps
  induction maps with
  | nil => intro c _; rfl
  | cons m rest ih =>
    intro c h
    simp only [refineAll] at h ⊢
    split at h
    · rename_i hb
      simp only [if_pos hb]
      rw [ih c h]
    · rename_i hb
      split at h
      · simp at h
      · rename_i hexp
        simp only [if_neg hb]
        have hnone : clockExpired (none : Clock) = false := rfl
        simp only [hnone, Bool.false_eq_true, if_false]
        rw [if_neg hexp]
        have h2 : clockTick (none : Clock) = none := rfl
        rw [h2, ih (clockTick c) h]

/-! ## Lemmas: the move detector -/

theorem movMatch_blocks {oL mL : List Line} {d i : DetailedRangeMapping}
    (h : movMatch oL mL d i = true) :
    isDelBlock d = true ∧ isInsBlock i = true := by
  simp only [movMatch, Bool.and_eq_true] at h
  tauto

theorem isInsBlock_orig_empty {m : DetailedRangeMapping}
    (h : isInsBlock m = true) :
    m.original.end_line_exclusive ≤ m.original.start_line := by
  simp only [isInsBlock, Bool.and_eq_true, decide_eq_true_eq] at h
  exact h.1

theorem isDelBlock_mod_empty {m : DetailedRangeMapping}
    (h : isDelBlock m = true) :
    m.modified.end_line_exclusive ≤ m.modified.start_line := by
  simp only [isDelBlock, Bool.and_eq_true, decide_eq_true_eq] at h
  exact h.1

theorem findRemove_spec (p : DetailedRangeMapping → Bool) :
    ∀ (l : List DetailedRangeMapping) y ys, findRemove p l = some (y, ys) →
      p y = true ∧ l.Perm (y :: ys) ∧ ys.Sublist l := by
  intro l
  induction l with
  | nil => intro y ys h; simp [findRemove] at h
  | cons x xs ih =>
    intro y ys h
    simp only [findRemove] at h
    split at h
    · rename_i hp
      injection h with h2
      injection h2 with ha hb
      subst ha; subst hb
      exact ⟨hp, List.Perm.refl _, List.sublist_cons_self ..⟩
    · rcases hfr : findRemove p xs with _ | ⟨y0, ys0⟩ <;> rw [hfr] at h
      · simp at h
      · simp only [Option.some.injEq, Prod.mk.injEq] at h
        obtain ⟨hy, hys⟩ := h
        subst hy; subst hys
        obtain ⟨hp, hperm, hsub⟩ := ih y0 ys0 hfr
        refine ⟨hp, ?_, ?_⟩
        · exact (hperm.cons x).trans (List.Perm.swap y0 x ys0)
        · exact hsub.cons₂ x

theorem grabPartner_spec {oL mL : List Line} {c : DetailedRangeMapping}
    {rest : List DetailedRangeMapping}
    {d i : DetailedRangeMapping} {rest2 : List DetailedRangeMapping}
    (h : grabPartner oL mL c rest = some (d, i, rest2)) :
    movMatch oL mL d i = true ∧ (c :: rest).Perm (d :: i :: rest2) ∧
      rest2.Sublist rest := by
  unfold grabPartner at h
  split at h
  · rcases hfr : findRemove (fun i2 => movMatch oL mL c i2) rest
      with _ | ⟨y, ys⟩ <;> rw [hfr] at h
    · simp at h
    · simp only [Option.some.injEq, Prod.mk.injEq] at h
      obtain ⟨rfl, rfl, rfl⟩ := h
      obtain ⟨hp, hperm, hsub⟩ := findRemove_spec _ rest _ _ hfr
      exact ⟨hp, hperm.cons _, hsub⟩
  · split at h
    · rcases hfr : findRemove (fun d2 => movMatch oL mL d2 c) rest
        with _ | ⟨y, ys⟩ <;> rw [hfr] at h
      · simp at h
      · simp only [Option.some.injEq, Prod.mk.injEq] at h
        obtain ⟨rfl, rfl, rfl⟩ := h
        obtain ⟨hp, hperm, hsub⟩ := findRemove_spec _ rest _ _ hfr
        refine ⟨hp, ?_, hsub⟩
        exact (hperm.cons _).trans (List.Perm.swap _ _ _)
    · simp at h

theorem extractMovesAux_spec (ets : Bool) (oL mL : List Line) :
    ∀ (n : Nat) (l cs : List DetailedRangeMapping) (ms : List MovedBlock),
      extractMovesAux ets oL mL n l = (cs, ms) →
      ∃ pairs : List (DetailedRangeMapping × DetailedRangeMapping),
        ms = pairs.map (fun pr => mkMovedBlock ets oL mL pr.1 pr.2) ∧
        (∀ pr ∈ pairs, movMatch oL mL pr.1 pr.2 = true) ∧
        l.Perm (cs ++ pairs.map Prod.fst ++ pairs.map Prod.snd) ∧
        cs.Sublist l := by
  intro n
  induction n with
  | zero =>
    intro l cs ms h
    simp only [extractMovesAux] at h
    obtain ⟨h1, h2⟩ := Prod.mk.injEq .. ▸ h
    subst h1; subst h2
    exact ⟨[], rfl, by simp, by simp, List.Sublist.refl _⟩
  | succ n ih =>
    intro l cs ms h
    cases l with
    | nil =>
      simp only [extractMovesAux] at h
      obtain ⟨h1, h2⟩ := Prod.mk.injEq .. ▸ h
      subst h1; subst h2
      exact ⟨[], rfl, by simp, by simp, List.Sublist.refl _⟩
    | cons c rest =>
      simp only [extractMovesAux] at h
      rcases hgp : grabPartner oL mL c rest with _ | ⟨d, i, rest2⟩ <;>
        rw [hgp] at h
      · simp only [Prod.mk.injEq] at h
        obtain ⟨h1, h2⟩ := h
        rcases hrec : extractMovesAux ets oL mL n rest with ⟨cs0, ms0⟩
        rw [hrec] at h1 h2
        simp only at h1 h2
        subst h1; subst h2
        obtain ⟨pairs, hms, hmm, hperm, hsub⟩ := ih rest cs0 ms0 hrec
        refine ⟨pairs, hms, hmm, ?_, hsub.cons₂ c⟩
        simpa using hperm.cons c
      · simp only [Prod.mk.injEq] at h
        obtain ⟨h1, h2⟩ := h
        rcases hrec : extractMovesAux ets oL mL n rest2 with ⟨cs0, ms0⟩
        rw [hrec] at h1 h2
        simp only at h1 h2
        subst h1
        obtain ⟨hgp1, hgp2, hgp3⟩ := grabPartner_spec hgp
        obtain ⟨pairs, hms, hmm, hperm, hsub⟩ := ih rest2 cs0 ms0 hrec
        refine ⟨(d, i) :: pairs, ?_, ?_, ?_, ?_⟩
        · rw [← h2, hms]
          rfl
        · intro pr hpr
          rcases List.mem_cons.mp hpr with rfl | hpr
          · exact hgp1
          · exact hmm pr hpr
        · have hstep : (cs0 ++ ((d, i) :: pairs).map Prod.fst ++
              ((d, i) :: pairs).map Prod.snd).Perm
              (d :: i :: (cs0 ++ pairs.map Prod.fst ++ pairs.map Prod.snd)) := by
            simp only [List.map_cons]
            have p1 : (cs0 ++ d :: pairs.map Prod.fst).Perm
                (d :: (cs0 ++ pairs.map Prod.fst)) := List.perm_middle
            refine (p1.append_right (i :: pairs.map Prod.snd)).trans ?_
            exact List.Perm.cons d List.perm_middle
          exact (hgp2.trans ((hperm.cons i).cons d)).trans hstep.symm
        · exact (hsub.trans hgp3).trans (List.sublist_cons_self ..)

/-! ## Lemmas: sorting moved blocks -/

theorem insertMove_perm (m : MovedBlock) (l : List MovedBlock) :
    (insertMove m l).Perm (m :: l) := by
  induction l with
  | nil => exact List.Perm.refl _
  | cons x xs ih =>
    simp only [insertMove]
    split
    · exact List.Perm.refl _
    · exact (ih.cons x).trans (List.Perm.swap m x xs)

theorem sortMoves_perm (l : List MovedBlock) : (sortMoves l).Perm l := by
  induction l with
  | nil => exact List.Perm.refl _
  | cons m ms ih =>
    simp only [sortMoves]
    exact (insertMove_perm m (sortMoves ms)).trans (ih.cons m)

theorem insertMove_sorted (m : MovedBlock) (l : List MovedBlock)
    (h : l.Pairwise
      (fun a b => a.original.start_line ≤ b.original.start_line)) :
    (insertMove m l).Pairwise
      (fun a b => a.original.start_line ≤ b.original.start_line) := by
  induction l with
  | nil => exact List.pairwise_singleton ..
  | cons x xs ih =>
    rcases List.pairwise_cons.mp h with ⟨hx, hxs⟩
    simp only [insertMove]
    split
    · rename_i hle
      refine List.pairwise_cons.mpr ⟨?_, h⟩
      intro b hb
      rcases List.mem_cons.mp hb with rfl | hb
      · exact hle
      · exact Nat.le_trans hle (hx b hb)
    · rename_i hgt
      have hxm : x.original.start_line ≤ m.original.start_line :=
        Nat.le_of_not_le hgt
      refine List.pairwise_cons.mpr ⟨?_, ih hxs⟩
      intro b hb
      have := (insertMove_perm m xs).mem_iff.mp hb
      rcases List.mem_cons.mp this with rfl | hbxs
      · exact hxm
      · exact hx b hbxs

theorem sortMoves_sorted (l : List MovedBlock) :
    (sortMoves l).Pairwise
      (fun a b => a.original.start_line ≤ b.original.start_line) := by
  induction l with
  | nil => exact List.Pairwise.nil
  | cons m ms ih => exact insertMove_sorted m (sortMoves ms) ih

/-! ## Lemmas: range accounting across move extraction -/

theorem extractMoves_orig (ets : Bool) (oL mL : List Line)
    {l cs : List DetailedRangeMapping} {ms : List MovedBlock}
    (h : extractMoves ets oL mL l = (cs, ms)) :
    ∃ extras : List LineRange,
      (∀ r ∈ extras, r.end_line_exclusive ≤ r.start_line) ∧
      (l.map (fun d => d.original)).Perm
        ((cs.map fun d => d.original) ++ (ms.map fun m => m.original) ++
          extras) ∧
      cs.Sublist l := by
  obtain ⟨pairs, hms, hmm2, hperm, hsub⟩ :=
    extractMovesAux_spec ets oL mL l.length l cs ms h
  refine ⟨pairs.map (fun pr => pr.2.original), ?_, ?_, hsub⟩
  · intro r hr
    obtain ⟨pr, hpr, rfl⟩ := List.mem_map.mp hr
    exact isInsBlock_orig_empty (movMatch_blocks (hmm2 pr hpr)).2
  · have h1 := hperm.map (fun d => d.original)
    simp only [List.map_append] at h1
    refine h1.trans ?_
    have h2 : (pairs.map Prod.fst).map (fun d => d.original) =
        ms.map (fun m => m.original) := by
      rw [hms]
      simp only [List.map_map]
      rfl
    have h3 : (pairs.map Prod.snd).map (fun d => d.original) =
        pairs.map (fun pr => pr.2.original) := by
      simp only [List.map_map]
      rfl
    rw [h2, h3]

theorem extractMoves_mod (ets : Bool) (oL mL : List Line)
    {l cs : List DetailedRangeMapping} {ms : List MovedBlock}
    (h : extractMoves ets oL mL l = (cs, ms)) :
    ∃ extras : List LineRange,
      (∀ r ∈ extras, r.end_line_exclusive ≤ r.start_line) ∧
      (l.map (fun d => d.modified)).Perm
        ((cs.map fun d => d.modified) ++ (ms.map fun m => m.modified) ++
          extras) ∧
      cs.Sublist l := by
  obtain ⟨pairs, hms, hmm2, hperm, hsub⟩ :=
    extractMovesAux_spec ets oL mL l.length l cs ms h
  refine ⟨pairs.map (fun pr => pr.1.modified), ?_, ?_, hsub⟩
  · intro r hr
    obtain ⟨pr, hpr, rfl⟩ := List.mem_map.mp hr
    exact isDelBlock_mod_empty (movMatch_blocks (hmm2 pr hpr)).1
  · have h1 := hperm.map (fun d => d.modified)
    simp only [List.map_append] at h1
    refine h1.trans ?_
    have h2 : (pairs.map Prod.snd).map (fun d => d.modified) =
        ms.map (fun m => m.modified) := by
      rw [hms]
      simp only [List.map_map]
      rfl
    have h3 : (pairs.map Prod.fst).map (fun d => d.modified) =
        pairs.map (fun pr => pr.1.modified) := by
      simp only [List.map_map]
      rfl
    rw [h2, h3]
    rw [List.append_assoc, List.append_assoc]
    exact List.Perm.append_left _ List.perm_append_comm

/-! ## Lemmas: sums and coverage respect permutations and empty ranges -/

theorem sumSizes_perm {rs1 rs2 : List LineRange} (h : rs1.Perm rs2) :
    sumSizes rs1 = sumSizes rs2 := (h.map rangeSize).sum_eq

theorem sumSizes_append (a b : List LineRange) :
    sumSizes (a ++ b) = sumSizes a + sumSizes b := by
  simp [sumSizes]

theorem sumSizes_empties {rs : List LineRange}
    (h : ∀ r ∈ rs, r.end_line_exclusive ≤ r.start_line) : sumSizes rs = 0 := by
  induction rs with
  | nil => rfl
  | cons r rest ih =>
    have h1 := h r (List.mem_cons_self ..)
    have h2 := ih (fun s hs => h s (List.mem_cons_of_mem _ hs))
    simp only [sumSizes, List.map_cons, List.sum_cons] at h2 ⊢
    simp only [rangeSize]
    omega

theorem coveredBy_perm {rs1 rs2 : List LineRange} (h : rs1.Perm rs2) (n : Nat) :
    coveredBy rs1 n = coveredBy rs2 n := by
  rw [Bool.eq_iff_iff]
  simp only [coveredBy, List.any_eq_true]
  exact ⟨fun ⟨x, hx, px⟩ => ⟨x, h.mem_iff.mp hx, px⟩,
         fun ⟨x, hx, px⟩ => ⟨x, h.mem_iff.mpr hx, px⟩⟩

theorem coveredBy_append (a b : List LineRange) (n : Nat) :
    coveredBy (a ++ b) n = (coveredBy a n || coveredBy b n) :=
  List.any_append

theorem coveredBy_empties {rs : List LineRange}
    (h : ∀ r ∈ rs, r.end_line_exclusive ≤ r.start_line) (n : Nat) :
    coveredBy rs n = false := by
  simp only [coveredBy, List.any_eq_false]
  intro r hr
  have := h r hr
  simp only [lineInRange, Bool.and_eq_true, decide_eq_true_eq, not_and]
  omega

/-! ## The central structural fact about `compute_diff` results -/

/-- The result's ranges arise from a chained, in-bounds pre-move mapping
list: up to a permutation that only drops empty ranges, the reported
original-side (resp. modified-side) ranges are exactly the pre-move ranges;
ordinary changes form a sublist of the pre-move list, and moves are sorted
by construction. -/
theorem compute_diff_ranges (origL modL : List Line) (opts : DiffOptions)
    (fuel : Nat) :
    ∃ (preO preM extrasO extrasM : List LineRange) (ms0 : List MovedBlock),
      ChainedR 1 preO ∧ ChainedR 1 preM ∧
      (∀ r ∈ preO, r.end_line_exclusive ≤ origL.length + 1) ∧
      (∀ r ∈ preM, r.end_line_exclusive ≤ modL.length + 1) ∧
      (∀ r ∈ extrasO, r.end_line_exclusive ≤ r.start_line) ∧
      (∀ r ∈ extrasM, r.end_line_exclusive ≤ r.start_line) ∧
      preO.Perm (origRanges (compute_diff origL modL opts fuel) ++ extrasO) ∧
      preM.Perm (modRanges (compute_diff origL modL opts fuel) ++ extrasM) ∧
      ((compute_diff origL modL opts fuel).changes.map
        (fun c => c.original)).Sublist preO ∧
      ((compute_diff origL modL opts fuel).changes.map
        (fun c => c.modified)).Sublist preM ∧
      (compute_diff origL modL opts fuel).moves = sortMoves ms0 := by
  simp only [compute_diff]
  have hspec := lineDiffChunks_spec eqLine
    (if opts.max_computation_time_ms = 0 then none else some fuel)
    (origL.map (lineKey opts.ignore_trim_whitespace))
    (modL.map (lineKey opts.ignore_trim_whitespace))
  rcases h1 : lineDiffChunks eqLine
      (if opts.max_computation_time_ms = 0 then none else some fuel)
      (origL.map (lineKey opts.ignore_trim_whitespace))
      (modL.map (lineKey opts.ignore_trim_whitespace))
    with ⟨p, chunks, flag1, clock1⟩
  rw [h1] at hspec
  obtain ⟨hp, hsrc, hdst, hne⟩ := hspec
  simp only at hp hsrc hdst hne ⊢
  rw [← hp] at hsrc hdst
  have hch := chunkMappings_chained chunks (p + 1) (p + 1)
  have hchRO := chainedR_mono 1 (Nat.le_add_left 1 p)
    (chainedR_of_chainedM hch).1
  have hchRM := chainedR_mono 1 (Nat.le_add_left 1 p)
    (chainedR_of_chainedM hch).2
  have hple : p ≤ origL.length := by
    have := commonPrefixLen_le_left eqLine
      (origL.map (lineKey opts.ignore_trim_whitespace))
      (modL.map (lineKey opts.ignore_trim_whitespace))
    rw [← hp] at this
    simpa using this
  have hpleM : p ≤ modL.length := by
    have := commonPrefixLen_le_right eqLine
      (origL.map (lineKey opts.ignore_trim_whitespace))
      (modL.map (lineKey opts.ignore_trim_whitespace))
    rw [← hp] at this
    simpa using this
  have hboundO : ∀ r ∈ (chunkMappings (p + 1) (p + 1) chunks).map
      (fun m => m.original), r.end_line_exclusive ≤ origL.length + 1 := by
    intro r hr
    obtain ⟨m, hm, rfl⟩ := List.mem_map.mp hr
    have hb := (chunkMappings_bounds chunks (p + 1) (p + 1) m hm).1
    rw [hsrc] at hb
    simp only [List.length_drop, List.length_map] at hb
    omega
  have hboundM : ∀ r ∈ (chunkMappings (p + 1) (p + 1) chunks).map
      (fun m => m.modified), r.end_line_exclusive ≤ modL.length + 1 := by
    intro r hr
    obtain ⟨m, hm, rfl⟩ := List.mem_map.mp hr
    have hb := (chunkMappings_bounds chunks (p + 1) (p + 1) m hm).2
    rw [hdst] at hb
    simp only [List.length_drop, List.length_map] at hb
    omega
  rcases h2 : refineAll opts.extend_to_subwords origL modL clock1
      (chunkMappings (p + 1) (p + 1) chunks) with ⟨detailed, flag2, clock2⟩
  have hdr : detailed.map drmRanges = chunkMappings (p + 1) (p + 1) chunks := by
    have hra := refineAll_ranges opts.extend_to_subwords origL modL
      (chunkMappings (p + 1) (p + 1) chunks) clock1
    rw [h2] at hra
    exact hra
  have hdO : detailed.map (fun c => c.original) =
      (chunkMappings (p + 1) (p + 1) chunks).map (fun m => m.original) := by
    rw [← hdr, List.map_map]
    rfl
  have hdM : detailed.map (fun c => c.modified) =
      (chunkMappings (p + 1) (p + 1) chunks).map (fun m => m.modified) := by
    rw [← hdr, List.map_map]
    rfl
  by_cases hmv : opts.compute_moves = true
  · rcases h3 : extractMoves opts.extend_to_subwords origL modL detailed
      with ⟨cs, ms⟩
    obtain ⟨extrasO, heO, hpermO, hsubO⟩ :=
      extractMoves_orig opts.extend_to_subwords origL modL h3
    obtain ⟨extrasM, heM, hpermM, _⟩ :=
      extractMoves_mod opts.extend_to_subwords origL modL h3
    simp only [hmv, if_true, h3]
    refine ⟨(chunkMappings (p + 1) (p + 1) chunks).map (fun m => m.original),
      (chunkMappings (p + 1) (p + 1) chunks).map (fun m => m.modified),
      extrasO, extrasM, ms,
      hchRO, hchRM, hboundO, hboundM, heO, heM, ?_, ?_, ?_, ?_, rfl⟩
    · rw [← hdO]
      refine hpermO.trans ?_
      simp only [origRanges]
      exact List.Perm.append_right extrasO
        (List.Perm.append_left _ ((sortMoves_perm ms).map _).symm)
    · rw [← hdM]
      refine hpermM.trans ?_
      simp only [modRanges]
      exact List.Perm.append_right extrasM
        (List.Perm.append_left _ ((sortMoves_perm ms).map _).symm)
    · rw [← hdO]
      exact hsubO.map _
    · rw [← hdM]
      exact hsubO.map _
  · simp only [hmv, if_false, Bool.false_eq_true]
    refine ⟨(chunkMappings (p + 1) (p + 1) chunks).map (fun m => m.original),
      (chunkMappings (p + 1) (p + 1) chunks).map (fun m => m.modified),
      [], [], [],
      hchRO, hchRM, hboundO, hboundM, by simp, by simp, ?_, ?_, ?_, ?_, rfl⟩
    · rw [← hdO]
      simp [origRanges, sortMoves]
    · rw [← hdM]
      simp [modRanges, sortMoves]
    · rw [← hdO]
    · rw [← hdM]

/-! ## Lemmas: orchestrator-level helpers -/

/-- Whenever no stage cut work short, the result coincides with the result
of the unbounded-budget run: a `false` timeout flag certifies that nothing
was skipped. -/
theorem compute_diff_unbounded (origL modL : List Line) (opts : DiffOptions)
    (fuel : Nat)
    (h : (compute_diff origL modL opts fuel).hit_timeout = false) :
    compute_diff origL modL opts fuel =
      compute_diff origL modL
        ⟨opts.ignore_trim_whitespace, 0, opts.compute_moves,
          opts.extend_to_subwords⟩ fuel := by
  simp only [compute_diff] at h ⊢
  obtain ⟨hf1, hf2⟩ := Bool.or_eq_false_iff.mp h
  obtain ⟨hpeq, hceq⟩ := lineDiffChunks_clock_irrel eqLine
    (if opts.max_computation_time_ms = 0 then none else some fuel)
    (origL.map (lineKey opts.ignore_trim_whitespace))
    (modL.map (lineKey opts.ignore_trim_whitespace)) hf1
  have hfn := lineDiffChunks_none eqLine
    (origL.map (lineKey opts.ignore_trim_whitespace))
    (modL.map (lineKey opts.ignore_trim_whitespace))
  simp only [if_true, hpeq, hceq, hfn.2]
  have hri := refineAll_clock_irrel opts.extend_to_subwords origL modL
    (chunkMappings
      ((lineDiffChunks eqLine
        (if opts.max_computation_time_ms = 0 then none else some fuel)
        (origL.map (lineKey opts.ignore_trim_whitespace))
        (modL.map (lineKey opts.ignore_trim_whitespace))).1 + 1)
      ((lineDiffChunks eqLine
        (if opts.max_computation_time_ms = 0 then none else some fuel)
        (origL.map (lineKey opts.ignore_trim_whitespace))
        (modL.map (lineKey opts.ignore_trim_whitespace))).1 + 1)
      (lineDiffChunks eqLine
        (if opts.max_computation_time_ms = 0 then none else some fuel)
        (origL.map (lineKey opts.ignore_trim_whitespace))
        (modL.map (lineKey opts.ignore_trim_whitespace))).2.1)
    (lineDiffChunks eqLine
      (if opts.max_computation_time_ms = 0 then none else some fuel)
      (origL.map (lineKey opts.ignore_trim_whitespace))
      (modL.map (lineKey opts.ignore_trim_whitespace))).2.2.2 hf2
  have hrn := refineAll_none opts.extend_to_subwords origL modL
    (chunkMappings
      ((lineDiffChunks eqLine
        (if opts.max_computation_time_ms = 0 then none else some fuel)
        (origL.map (lineKey opts.ignore_trim_whitespace))
        (modL.map (lineKey opts.ignore_trim_whitespace))).1 + 1)
      ((lineDiffChunks eqLine
        (if opts.max_computation_time_ms = 0 then none else some fuel)
        (origL.map (lineKey opts.ignore_trim_whitespace))
        (modL.map (lineKey opts.ignore_trim_whitespace))).1 + 1)
      (lineDiffChunks eqLine
        (if opts.max_computation_time_ms = 0 then none else some fuel)
        (origL.map (lineKey opts.ignore_trim_whitespace))
        (modL.map (lineKey opts.ignore_trim_whitespace))).2.1)
  simp only [hri, hrn.1, hf1, hf2, hfn.1, Bool.or_false, Bool.false_or]

/-- On nonempty NUL-free content the buffer after `fgets` holds a nonempty
C string, so the `"unknown"` fallback is not taken. -/
theorem cString_fgetsAux_ne_nil (n : Nat) (hn : n ≠ 0) (c : Char) (cs : List Char)
    (hc : c ≠ '\x00') : cString (fgetsAux n (c :: cs)) ≠ [] := by
  cases n with
  | zero => exact absurd rfl hn
  | succ m =>
    simp only [fgetsAux]
    by_cases hnl : c = '\n'
    · simp [hnl, cString, List.takeWhile_cons]
    · simp [hnl, cString, List.takeWhile_cons, hc]

/-! ## Claim theorems -/

/-- C1: for every line sequence `L` and every `DiffOptions` value,
`compute_diff L L opts` returns a `LinesDiff` with an empty changes list, an
empty moves list, and `hit_timeout = false`, regardless of the options and
of the step budget realizing the millisecond budget. -/
theorem c1_identity (L : List Line) (opts : DiffOptions) (fuel : Nat) :
    (compute_diff L L opts fuel).changes = [] ∧
    (compute_diff L L opts fuel).moves = [] ∧
    (compute_diff L L opts fuel).hit_timeout = false := by
  have hcpl : commonPrefixLen eqLine
      (L.map (lineKey opts.ignore_trim_whitespace))
      (L.map (lineKey opts.ignore_trim_whitespace)) =
      (L.map (lineKey opts.ignore_trim_whitespace)).length :=
    commonPrefixLen_refl eqLine (fun x => by simp [eqLine]) _
  have hd : (L.map (lineKey opts.ignore_trim_whitespace)).drop
      (L.map (lineKey opts.ignore_trim_whitespace)).length = [] :=
    List.drop_length _
  have hldc : lineDiffChunks eqLine
      (if opts.max_computation_time_ms = 0 then none else some fuel)
      (L.map (lineKey opts.ignore_trim_whitespace))
      (L.map (lineKey opts.ignore_trim_whitespace)) =
      ((L.map (lineKey opts.ignore_trim_whitespace)).length, [], false,
        if opts.max_computation_time_ms = 0 then none else some fuel) := by
    simp only [lineDiffChunks, hcpl, hd]
    simp
  simp only [compute_diff, hldc]
  simp [chunkMappings, refineAll, extractMoves, extractMovesAux, sortMoves]

/-- C2: for every input pair and options (and any step budget, so also when
`hit_timeout` is true), the result partitions both inputs: per side, the
lines covered by reported ranges (changes and moves together) plus the
lines not covered account for exactly the full line count. -/
theorem c2_partition (origL modL : List Line) (opts : DiffOptions)
    (fuel : Nat) :
    sumSizes (origRanges (compute_diff origL modL opts fuel)) +
      ((Finset.Ico 1 (origL.length + 1)).filter
        (fun n => coveredBy (origRanges (compute_diff origL modL opts fuel))
          n = false)).card = origL.length ∧
    sumSizes (modRanges (compute_diff origL modL opts fuel)) +
      ((Finset.Ico 1 (modL.length + 1)).filter
        (fun n => coveredBy (modRanges (compute_diff origL modL opts fuel))
          n = false)).card = modL.length := by
  obtain ⟨preO, preM, exO, exM, ms0, hchO, hchM, hbO, hbM, heO, heM, hpO,
    hpM, _, _, _⟩ := compute_diff_ranges origL modL opts fuel
  constructor
  · have hpart := chained_partition preO 1 (origL.length + 1) hchO hbO
    have hsum : sumSizes preO =
        sumSizes (origRanges (compute_diff origL modL opts fuel)) := by
      rw [sumSizes_perm hpO, sumSizes_append, sumSizes_empties heO]
      omega
    have hfe : (Finset.Ico 1 (origL.length + 1)).filter
        (fun n => coveredBy preO n = false) =
        (Finset.Ico 1 (origL.length + 1)).filter
        (fun n => coveredBy (origRanges (compute_diff origL modL opts fuel))
          n = false) := by
      apply Finset.filter_congr
      intro n _
      rw [coveredBy_perm hpO n, coveredBy_append,
        coveredBy_empties heO, Bool.or_false]
    rw [hsum, hfe] at hpart
    simpa using hpart
  · have hpart := chained_partition preM 1 (modL.length + 1) hchM hbM
    have hsum : sumSizes preM =
        sumSizes (modRanges (compute_diff origL modL opts fuel)) := by
      rw [sumSizes_perm hpM, sumSizes_append, sumSizes_empties heM]
      omega
    have hfe : (Finset.Ico 1 (modL.length + 1)).filter
        (fun n => coveredBy preM n = false) =
        (Finset.Ico 1 (modL.length + 1)).filter
        (fun n => coveredBy (modRanges (compute_diff origL modL opts fuel))
          n = false) := by
      apply Finset.filter_congr
      intro n _
      rw [coveredBy_perm hpM n, coveredBy_append,
        coveredBy_empties heM, Bool.or_false]
    rw [hsum, hfe] at hpart
    simpa using hpart

/-- C3: for every input pair, options and step budget, the result is well
ordered and disjoint: changes and moves are each sorted by ascending
`original.start_line`, adjacent changes satisfy
`end_line_exclusive ≤ start_line` of the next, and all reported ranges are
pairwise non-overlapping per side, moves included. -/
theorem c3_ordering (origL modL : List Line) (opts : DiffOptions)
    (fuel : Nat) :
    (compute_diff origL modL opts fuel).changes.Pairwise
      (fun a b => a.original.start_line ≤ b.original.start_line) ∧
    (compute_diff origL modL opts fuel).moves.Pairwise
      (fun a b => a.original.start_line ≤ b.original.start_line) ∧
    (compute_diff origL modL opts fuel).changes.Pairwise
      (fun a b => a.original.end_line_exclusive ≤ b.original.start_line) ∧
    List.Pairwise RangesDisjoint
      (origRanges (compute_diff origL modL opts fuel)) ∧
    List.Pairwise RangesDisjoint
      (modRanges (compute_diff origL modL opts fuel)) := by
  obtain ⟨preO, preM, exO, exM, ms0, hchO, hchM, hbO, hbM, heO, heM, hpO,
    hpM, hsO, hsM, hmv⟩ := compute_diff_ranges origL modL opts fuel
  have hsymm : ∀ {a b : LineRange}, RangesDisjoint a b → RangesDisjoint b a :=
    fun hab n hn => hab n ⟨hn.2, hn.1⟩
  have hdisj_of : ∀ {a b : LineRange},
      a.end_line_exclusive ≤ b.start_line → RangesDisjoint a b := by
    intro a b hab n hn
    obtain ⟨h1, h2⟩ := hn
    simp only [lineInRange, Bool.and_eq_true, decide_eq_true_eq] at h1 h2
    omega
  have hpwO := chainedR_pairwise hchO
  have hpwM := chainedR_pairwise hchM
  have hsepO := hpwO.sublist hsO
  refine ⟨?_, ?_, ?_, ?_, ?_⟩
  · -- sorted by start: from separation plus well-formedness of each range
    have hwf := chainedR_wf hchO
    have hps : (List.map (fun c => c.original)
        (compute_diff origL modL opts fuel).changes).Pairwise
        (fun a b => a.start_line ≤ b.start_line) := by
      refine List.Pairwise.imp_of_mem ?_ hsepO
      intro a b ha hb hab
      have hwa := hwf a (hsO.subset ha)
      omega
    have h2 := List.pairwise_map.mp hps
    exact h2
  · rw [hmv]
    exact sortMoves_sorted ms0
  · have h2 := List.pairwise_map.mp hsepO
    exact h2
  · have hdpre : List.Pairwise RangesDisjoint preO :=
      hpwO.imp (fun hab => hdisj_of hab)
    have := (hpO.pairwise_iff (fun h2 => hsymm h2)).mp hdpre
    exact this.sublist (List.sublist_append_left _ _)
  · have hdpre : List.Pairwise RangesDisjoint preM :=
      hpwM.imp (fun hab => hdisj_of hab)
    have := (hpM.pairwise_iff (fun h2 => hsymm h2)).mp hdpre
    exact this.sublist (List.sublist_append_left _ _)

/-- C4: with `ignore_trim_whitespace = false` the whitespace-only edit of
`["hello","world"]` versus `["  hello  ","world"]` is reported as exactly one
ordinary one-line modification covering line 1; with the option set it is
absorbed and no change is reported; and in general, with the option set, no
whitespace-only line change ever appears in the output. -/
theorem c4_whitespace_toggle (origL modL : List Line) (opts : DiffOptions)
    (fuel : Nat) (hitw : opts.ignore_trim_whitespace = true) :
    ((compute_diff [("hello").data, ("world").data]
        [("  hello  ").data, ("world").data]
        ⟨false, 0, false, false⟩ 0).changes.map
        (fun m => (m.original.start_line, m.original.end_line_exclusive,
          m.modified.start_line, m.modified.end_line_exclusive)) =
      [(1, 2, 1, 2)]) ∧
    ((compute_diff [("hello").data, ("world").data]
        [("  hello  ").data, ("world").data]
        ⟨true, 0, false, false⟩ 0).changes = []) ∧
    ∀ m ∈ (compute_diff origL modL opts fuel).changes,
      ¬ wsOnlyChange origL modL m := by
  refine ⟨by decide, by decide, ?_⟩
  intro m hm hws
  obtain ⟨hO, hM, heq⟩ := hws
  rcases h1 : lineDiffChunks eqLine
      (if opts.max_computation_time_ms = 0 then none else some fuel)
      (origL.map (lineKey opts.ignore_trim_whitespace))
      (modL.map (lineKey opts.ignore_trim_whitespace))
    with ⟨p, chunks, flag1, clock1⟩
  have hspec := lineDiffChunks_spec eqLine
    (if opts.max_computation_time_ms = 0 then none else some fuel)
    (origL.map (lineKey opts.ignore_trim_whitespace))
    (modL.map (lineKey opts.ignore_trim_whitespace))
  rw [h1] at hspec
  obtain ⟨hp, hsrc, hdst, hne⟩ := hspec
  simp only at hp hsrc hdst hne
  rw [← hp] at hsrc hdst
  rcases h2 : refineAll opts.extend_to_subwords origL modL clock1
      (chunkMappings (p + 1) (p + 1) chunks) with ⟨detailed, flag2, clock2⟩
  have hmdet : m ∈ detailed := by
    simp only [compute_diff] at hm
    rw [h1] at hm
    simp only at hm
    rw [h2] at hm
    simp only at hm
    by_cases hmv : opts.compute_moves = true
    · simp only [hmv, if_true] at hm
      rcases h3 : extractMoves opts.extend_to_subwords origL modL detailed
        with ⟨cs, ms⟩
      rw [h3] at hm
      simp only at hm
      obtain ⟨_, _, _, hsub⟩ :=
        extractMoves_orig opts.extend_to_subwords origL modL h3
      exact hsub.subset hm
    · simp only [hmv, Bool.false_eq_true, if_false] at hm
      exact hm
  have hdr : detailed.map drmRanges = chunkMappings (p + 1) (p + 1) chunks := by
    have hra := refineAll_ranges opts.extend_to_subwords origL modL
      (chunkMappings (p + 1) (p + 1) chunks) clock1
    rw [h2] at hra
    exact hra
  have hmm2 : drmRanges m ∈ chunkMappings (p + 1) (p + 1) chunks := by
    rw [← hdr]
    exact List.mem_map_of_mem drmRanges hmdet
  have hsl := chunkMappings_slices eqLine chunks (p + 1) (p + 1)
    (origL.map (lineKey opts.ignore_trim_whitespace))
    (modL.map (lineKey opts.ignore_trim_whitespace))
    (by omega) (by omega)
    (by rw [Nat.add_sub_cancel]; exact hsrc.symm)
    (by rw [Nat.add_sub_cancel]; exact hdst.symm)
    hne (drmRanges m) hmm2
  simp only [drmRanges] at hsl
  obtain ⟨hlenO, hlenM, hheads⟩ := hsl
  have hkeyO : sliceLines (origL.map (lineKey opts.ignore_trim_whitespace))
      m.original = (sliceLines origL m.original).map trimLine := by
    rw [sliceLines_map]
    congr 1
    funext l
    rw [hitw]
    rfl
  have hkeyM : sliceLines (modL.map (lineKey opts.ignore_trim_whitespace))
      m.modified = (sliceLines modL m.modified).map trimLine := by
    rw [sliceLines_map]
    congr 1
    funext l
    rw [hitw]
    rfl
  have hsame : sliceLines (origL.map (lineKey opts.ignore_trim_whitespace))
      m.original =
      sliceLines (modL.map (lineKey opts.ignore_trim_whitespace))
      m.modified := by
    rw [hkeyO, heq, ← hkeyM]
  rcases hslO : sliceLines (origL.map (lineKey opts.ignore_trim_whitespace))
      m.original with _ | ⟨d, ds⟩
  · rw [hslO] at hlenO
    simp only [List.length_nil, rangeSize] at hlenO
    omega
  rcases hslM : sliceLines (modL.map (lineKey opts.ignore_trim_whitespace))
      m.modified with _ | ⟨i2, is2⟩
  · rw [hslM] at hlenM
    simp only [List.length_nil, rangeSize] at hlenM
    omega
  have hfalse := hheads d i2 (by rw [hslO]; rfl) (by rw [hslM]; rfl)
  rw [hslO, hslM] at hsame
  injection hsame with hhead _
  rw [hhead] at hfalse
  simp [eqLine] at hfalse

/-- With a zero millisecond budget the clock is unbounded, so the step
budget realizing it is irrelevant. -/
theorem compute_diff_zero_budget (o m : List Line) (itw cmv ets : Bool)
    (fuel : Nat) :
    compute_diff o m ⟨itw, 0, cmv, ets⟩ fuel =
      compute_diff o m ⟨itw, 0, cmv, ets⟩ 0 := rfl

/-- C5: `hit_timeout` tracks the time budget: with
`max_computation_time_ms = 0` the budget is unbounded and the flag is always
false; and whenever the flag is false, no stage terminated early — the
result is identical to the unbounded-budget result.  (Timeouts degrade but
never fail: `compute_diff` is total, and its outputs stay valid by the
partition and ordering theorems.) -/
theorem c5_timeout_contract (origL modL : List Line) (opts : DiffOptions)
    (fuel : Nat) :
    (opts.max_computation_time_ms = 0 →
      (compute_diff origL modL opts fuel).hit_timeout = false) ∧
    ((compute_diff origL modL opts fuel).hit_timeout = false →
      compute_diff origL modL opts fuel =
        compute_diff origL modL
          ⟨opts.ignore_trim_whitespace, 0, opts.compute_moves,
            opts.extend_to_subwords⟩ fuel) := by
  constructor
  · intro h0
    obtain ⟨ha, hb⟩ := lineDiffChunks_none eqLine
      (origL.map (lineKey opts.ignore_trim_whitespace))
      (modL.map (lineKey opts.ignore_trim_whitespace))
    have hrn : ∀ maps, (refineAll opts.extend_to_subwords origL modL none
        maps).2.1 = false :=
      fun maps => (refineAll_none opts.extend_to_subwords origL modL maps).1
    simp only [compute_diff, h0, if_true, ha, hb, hrn, Bool.or_false,
      Bool.false_or]
  · exact compute_diff_unbounded origL modL opts fuel

/-- Witness for C5 at concrete inputs: a run with unbounded budget reports
no timeout, and a run with a finite budget that did not expire equals the
unbounded run. -/
theorem c5_timeout_contract_witness :
    (compute_diff [("a").data] [("b").data] ⟨false, 0, false, false⟩ 3
      ).hit_timeout = false ∧
    compute_diff [("a").data] [("b").data] ⟨false, 7, false, false⟩ 5 =
      compute_diff [("a").data] [("b").data] ⟨false, 0, false, false⟩ 5 :=
  ⟨(c5_timeout_contract [("a").data] [("b").data]
      ⟨false, 0, false, false⟩ 3).1 rfl,
   (c5_timeout_contract [("a").data] [("b").data]
      ⟨false, 7, false, false⟩ 5).2 (by decide)⟩

/-- C6: `["hello world"]` versus `["hello universe"]`, under any options
with an unbounded budget, yields exactly one change starting at line 1 on
both sides, with a nonempty inner character-edit list whose spans lie within
the column bounds of the two lines. -/
theorem c6_single_line_substitution (itw cmv ets : Bool) (fuel : Nat) :
    (compute_diff [("hello world").data] [("hello universe").data]
      ⟨itw, 0, cmv, ets⟩ fuel).changes.map
        (fun m => (m.original.start_line, m.modified.start_line,
          decide (m.inner_changes ≠ []),
          innerWithinBounds [("hello world").data]
            [("hello universe").data] m)) = [(1, 1, true, true)] := by
  simp only [compute_diff_zero_budget]
  cases itw <;> cases cmv <;> cases ets <;> decide

/-- C7: `["A","B","C","D","E"]` versus `["D","E","A","B","C"]` with
`compute_moves = true` (threshold satisfied by the two-line D,E block)
yields exactly one moved block covering the relocated lines and no leftover
ordinary changes for them; with `compute_moves = false` the same input
yields only a pure insertion and a pure deletion, and no moves. -/
theorem c7_move_detection (itw ets : Bool) (fuel : Nat) :
    ((compute_diff
        [("A").data, ("B").data, ("C").data, ("D").data, ("E").data]
        [("D").data, ("E").data, ("A").data, ("B").data, ("C").data]
        ⟨itw, 0, true, ets⟩ fuel).moves.map
        (fun m => (m.original.start_line, m.original.end_line_exclusive,
          m.modified.start_line, m.modified.end_line_exclusive)) =
      [(4, 6, 1, 3)]) ∧
    ((compute_diff
        [("A").data, ("B").data, ("C").data, ("D").data, ("E").data]
        [("D").data, ("E").data, ("A").data, ("B").data, ("C").data]
        ⟨itw, 0, true, ets⟩ fuel).changes = []) ∧
    ((compute_diff
        [("A").data, ("B").data, ("C").data, ("D").data, ("E").data]
        [("D").data, ("E").data, ("A").data, ("B").data, ("C").data]
        ⟨itw, 0, false, ets⟩ fuel).moves = []) ∧
    ((compute_diff
        [("A").data, ("B").data, ("C").data, ("D").data, ("E").data]
        [("D").data, ("E").data, ("A").data, ("B").data, ("C").data]
        ⟨itw, 0, false, ets⟩ fuel).changes.map
        (fun m => (m.original.start_line, m.original.end_line_exclusive,
          m.modified.start_line, m.modified.end_line_exclusive)) =
      [(1, 1, 1, 3), (4, 6, 6, 6)]) := by
  simp only [compute_diff_zero_budget]
  cases itw <;> cases ets <;> decide

/-- C8: `compute_diff` is total over well-formed inputs (it is a total
function of its arguments); degenerate inputs are valid and produce a
single insert-everything or delete-everything mapping, or an empty change
list when both sides are empty — never an error. -/
theorem c8_degenerate_inputs (origL modL : List Line) (opts : DiffOptions)
    (fuel : Nat) :
    (modL ≠ [] →
      (compute_diff [] modL opts fuel).changes =
        [⟨⟨1, 1⟩, ⟨1, modL.length + 1⟩, []⟩] ∧
      (compute_diff [] modL opts fuel).moves = []) ∧
    (origL ≠ [] →
      (compute_diff origL [] opts fuel).changes =
        [⟨⟨1, origL.length + 1⟩, ⟨1, 1⟩, []⟩] ∧
      (compute_diff origL [] opts fuel).moves = []) ∧
    compute_diff [] [] opts fuel = ⟨[], [], false⟩ := by
  have hgp : ∀ (oL mL : List Line) c0, grabPartner oL mL c0 [] = none := by
    intro oL mL c0
    unfold grabPartner
    split
    · simp [findRemove]
    · split
      · simp [findRemove]
      · rfl
  have hex : ∀ (ets : Bool) (oL mL : List Line) c0,
      extractMoves ets oL mL [c0] = ([c0], []) := by
    intro ets oL mL c0
    simp [extractMoves, extractMovesAux, hgp]
  refine ⟨?_, ?_, ?_⟩
  · intro hmod
    obtain ⟨km, ksm, hk⟩ := List.exists_cons_of_ne_nil hmod
    have hch : ∀ c : Clock,
        (lineDiffChunks eqLine c []
          (modL.map (lineKey opts.ignore_trim_whitespace))).1 = 0 ∧
        (lineDiffChunks eqLine c []
          (modL.map (lineKey opts.ignore_trim_whitespace))).2.1 =
          [.edit [] (modL.map (lineKey opts.ignore_trim_whitespace))] := by
      intro c
      rw [hk]
      by_cases hc : clockExpired c = true <;>
        simp [lineDiffChunks, commonPrefixLen, hc, seqAlign, seqAlignAux]
    obtain ⟨h1, h2⟩ := hch
      (if opts.max_computation_time_ms = 0 then none else some fuel)
    simp only [compute_diff, List.map_nil, h1, h2]
    have hmaps : chunkMappings (0 + 1) (0 + 1)
        [Chunk.edit ([] : List Line)
          (modL.map (lineKey opts.ignore_trim_whitespace))] =
        [⟨⟨1, 1⟩, ⟨1, 1 + modL.length⟩⟩] := by
      simp [chunkMappings]
    rw [hmaps]
    have href : ∀ c : Clock,
        refineAll opts.extend_to_subwords [] modL c
          [⟨⟨1, 1⟩, ⟨1, 1 + modL.length⟩⟩] =
        ([⟨⟨1, 1⟩, ⟨1, 1 + modL.length⟩, []⟩], false, c) := by
      intro c
      simp [refineAll, rangeIsEmpty]
    rw [href]
    by_cases hmv : opts.compute_moves = true <;>
      simp [hmv, hex, sortMoves, Nat.add_comm]
  · intro horig
    obtain ⟨ko, kso, hk⟩ := List.exists_cons_of_ne_nil horig
    have hch : ∀ c : Clock,
        (lineDiffChunks eqLine c
          (origL.map (lineKey opts.ignore_trim_whitespace)) []).1 = 0 ∧
        (lineDiffChunks eqLine c
          (origL.map (lineKey opts.ignore_trim_whitespace)) []).2.1 =
          [.edit (origL.map (lineKey opts.ignore_trim_whitespace)) []] := by
      intro c
      rw [hk]
      by_cases hc : clockExpired c = true <;>
        simp [lineDiffChunks, commonPrefixLen, hc, seqAlign, seqAlignAux]
    obtain ⟨h1, h2⟩ := hch
      (if opts.max_computation_time_ms = 0 then none else some fuel)
    simp only [compute_diff, List.map_nil, h1, h2]
    have hmaps : chunkMappings (0 + 1) (0 + 1)
        [Chunk.edit (origL.map (lineKey opts.ignore_trim_whitespace))
          ([] : List Line)] =
        [⟨⟨1, 1 + origL.length⟩, ⟨1, 1⟩⟩] := by
      simp [chunkMappings]
    rw [hmaps]
    have href : ∀ c : Clock,
        refineAll opts.extend_to_subwords origL [] c
          [⟨⟨1, 1 + origL.length⟩, ⟨1, 1⟩⟩] =
        ([⟨⟨1, 1 + origL.length⟩, ⟨1, 1⟩, []⟩], false, c) := by
      intro c
      simp [refineAll, rangeIsEmpty]
    rw [href]
    by_cases hmv : opts.compute_moves = true <;>
      simp [hmv, hex, sortMoves, Nat.add_comm]
  · have hch : lineDiffChunks eqLine
        (if opts.max_computation_time_ms = 0 then none else some fuel)
        [] [] =
        (0, [], false,
          if opts.max_computation_time_ms = 0 then none else some fuel) := by
      simp [lineDiffChunks, commonPrefixLen]
    simp only [compute_diff, List.map_nil, hch]
    simp [chunkMappings, refineAll, extractMoves, extractMovesAux, sortMoves]

/-- Witness for C8 at concrete degenerate inputs. -/
theorem c8_degenerate_inputs_witness :
    ((compute_diff [] [("a").data, ("b").data]
        ⟨false, 0, false, false⟩ 0).changes =
      [⟨⟨1, 1⟩, ⟨1, 3⟩, []⟩] ∧
     (compute_diff [] [("a").data, ("b").data]
        ⟨false, 0, false, false⟩ 0).moves = []) ∧
    ((compute_diff [("a").data, ("b").data] []
        ⟨false, 0, false, false⟩ 0).changes =
      [⟨⟨1, 3⟩, ⟨1, 1⟩, []⟩] ∧
     (compute_diff [("a").data, ("b").data] []
        ⟨false, 0, false, false⟩ 0).moves = []) ∧
    compute_diff [] [] ⟨false, 0, false, false⟩ 0 = ⟨[], [], false⟩ :=
  ⟨(c8_degenerate_inputs [("a").data, ("b").data] [("a").data, ("b").data]
      ⟨false, 0, false, false⟩ 0).1 (by decide),
   (c8_degenerate_inputs [("a").data, ("b").data] [("a").data, ("b").data]
      ⟨false, 0, false, false⟩ 0).2.1 (by decide),
   (c8_degenerate_inputs [("a").data, ("b").data] [("a").data, ("b").data]
      ⟨false, 0, false, false⟩ 0).2.2⟩

/-- Witness for C4: applying the theorem at a concrete input with the
option set. -/
theorem c4_whitespace_toggle_witness :
    (compute_diff [("hello").data, ("world").data]
        [("  hello  ").data, ("world").data]
        ⟨true, 0, false, false⟩ 0).changes = [] :=
  (c4_whitespace_toggle [] [] ⟨true, 0, false, false⟩ 0 rfl).2.1

/-- C9: `read_version_from_file` reads the file system at most once per
process: the first call initializes the static cache (and touches the file
system), and every later call returns the identical string without touching
the file system, whatever happened to the `VERSION` file in between. -/
theorem c9_version_cache (file1 file2 : Option (List Char)) :
    (read_version_from_file file1 initVersionState).2.2 = true ∧
    read_version_from_file file2
        (read_version_from_file file1 initVersionState).2.1 =
      ((read_version_from_file file1 initVersionState).1,
        (read_version_from_file file1 initVersionState).2.1, false) := by
  constructor
  · rfl
  · simp [read_version_from_file, initVersionState]

/-- C10: `read_version_from_file` always yields a string of at most 31
characters: `"unknown"` when the file cannot be opened or is empty, and
otherwise the first line of the file truncated to 31 characters (the
truncation subsumes newline stripping: a line that does not fit keeps no
newline to strip). -/
theorem c10_read_version (file : Option (List Char)) :
    (readVersionOnce file).length ≤ 31 ∧
    (file = none → readVersionOnce file = ("unknown").data) ∧
    (file = some [] → readVersionOnce file = ("unknown").data) ∧
    ∀ content, file = some content → content ≠ [] → '\x00' ∉ content →
      readVersionOnce file = (firstLineOf content).take 31 := by
  refine ⟨readVersionOnce_length_le file, ?_, ?_, ?_⟩
  · rintro rfl
    rfl
  · rintro rfl
    rfl
  · rintro content rfl hne hnul
    rcases content with _ | ⟨c, cs⟩
    · exact absurd rfl hne
    · have hc : c ≠ '\x00' := fun h => hnul (h ▸ List.mem_cons_self c cs)
      have hbuf := cString_fgetsAux_ne_nil 31 (by omega) c cs hc
      simp only [readVersionOnce]
      rw [if_neg hbuf]
      exact fgets_strip_eq_firstLine 31 (c :: cs) hnul

/-- Witness for C10: a concrete one-line `VERSION` file. -/
theorem c10_read_version_witness :
    readVersionOnce (some (("1.2.3\n").data)) =
      (firstLineOf (("1.2.3\n").data)).take 31 ∧
    (firstLineOf (("1.2.3\n").data)).take 31 = ("1.2.3").data :=
  ⟨(c10_read_version (some (("1.2.3\n").data))).2.2.2 (("1.2.3\n").data)
      rfl (by decide) (by decide), by decide⟩

end CodeDiff
